import Mathlib

/-!
Verification of the repository-analysis engine of Python-Docer.

The definitions below are a shallow embedding of `src/backend/analyzer.py`
(class `RepoAnalyzer`, the most complete analyzer variant, the one imported
by `src/backend/main.py`), of the legacy variant `src/backend/analyser.py`,
and of the `/reanalyze` endpoint of `src/backend/main.py`.

Modelling conventions:
* Python strings are Lean `String`s; Python `len`/slicing are by code points,
  matched by `String.length` / char-list operations.
* The on-disk repository is an `FSTree` forest (the entries of the repository
  root).  `os.walk`, `os.path.exists`, `os.path.isfile` and `open()` are
  modelled against this forest; a read failure of `open()` is modelled by a
  set `failReads` of relative paths whose read raises.
* tree-sitter is external: parsing a file is modelled by an oracle
  `oracle : String → String → List Capture` giving, for a language name and a
  file content, the query captures (tag + byte offsets) that
  `language.query(...).captures(tree.root_node)` returns.  The flag
  `TREE_SITTER_AVAILABLE` is the boolean parameter `avail`.
* `networkx.DiGraph` is an insertion-ordered node list and edge list where
  `add_node`/`add_edge` upsert (a `DiGraph` holds at most one edge per
  ordered pair; re-adding updates its attributes).
* Exceptions are `Except String`; functions that cannot raise return `.ok`.
-/

namespace Docer

/-! ## Generic string utilities (Python semantics) -/

/-- Split a character list at every occurrence of `sep`
(Python `str.split(sep)` for a one-character separator). -/
def charSplit (sep : Char) : List Char → List (List Char)
  | [] => [[]]
  | c :: rest =>
    let r := charSplit sep rest
    if c = sep then [] :: r
    else
      match r with
      | [] => [[c]]
      | h :: t => (c :: h) :: t

/-- `pre.isPrefixOf l` as used below, with decidable equality. -/
def listStarts (pre l : List Char) : Bool := List.isPrefixOf pre l

/-- Python `needle in hay` (substring containment). -/
def infixOf (needle : List Char) : List Char → Bool
  | [] => decide (needle = [])
  | h :: t => listStarts needle (h :: t) || infixOf needle t

def containsS (hay needle : String) : Bool := infixOf needle.toList hay.toList

/-- Python `s.startswith(pre)`. -/
def startsWithS (s pre : String) : Bool := listStarts pre.toList s.toList

/-- Python `s.endswith(suf)`. -/
def endsWithS (s suf : String) : Bool := List.isSuffixOf suf.toList s.toList

/-- Python `s.endswith(tuple(sufs))`. -/
def endsWithAnyS (s : String) (sufs : List String) : Bool := sufs.any (endsWithS s)

/-- Python `s[n:]` (slicing is by code points). -/
def dropS (s : String) (n : Nat) : String := ⟨s.toList.drop n⟩

/-- Python `s[a:b]`. -/
def sliceStr (s : String) (a b : Nat) : String := ⟨(s.toList.drop a).take (b - a)⟩

/-- Python `s.lower()` (ASCII view, which is all the analyzer compares). -/
def lowerStr (s : String) : String := ⟨s.toList.map Char.toLower⟩

/-- Worker for `strReplace`, with explicit fuel (`fuel ≥ length` suffices,
each step consumes at least one character). -/
def replaceGo (pat sub : List Char) : Nat → List Char → List Char
  | 0, l => l
  | _ + 1, [] => []
  | fuel + 1, c :: rest =>
    if pat ≠ [] ∧ listStarts pat (c :: rest) then
      sub ++ replaceGo pat sub fuel (rest.drop (pat.length - 1))
    else
      c :: replaceGo pat sub fuel rest

/-- Python `s.replace(pat, sub)` (all occurrences, left to right). -/
def strReplace (s pat sub : String) : String :=
  ⟨replaceGo pat.toList sub.toList s.toList.length s.toList⟩

/-- Python `s.strip(chars)`: remove leading and trailing characters that are
in `cs`. -/
def stripChars (cs : List Char) (s : String) : String :=
  ⟨((s.toList.dropWhile (cs.contains ·)).reverse.dropWhile (cs.contains ·)).reverse⟩

/-- `text.strip('"\'')` as used on tree-sitter captures. -/
def stripQuotes (s : String) : String := stripChars ['"', '\''] s

/-- Python `path.split('/')[-1]`. -/
def lastComp (path : String) : String :=
  ((charSplit '/' path.toList).map (fun l => (⟨l⟩ : String))).getLastD path

/-! ## POSIX path functions (`os.path` on the Linux host) -/

/-- `os.path.join(a, b)` (POSIX). -/
def pathJoin (a b : String) : String :=
  if startsWithS b "/" then b
  else if a = "" ∨ endsWithS a "/" then a ++ b
  else a ++ "/" ++ b

/-- `os.path.join(a, b, c)`. -/
def pathJoin3 (a b c : String) : String := pathJoin (pathJoin a b) c

/-- `os.path.dirname(p)` (POSIX). -/
def dirname (p : String) : String :=
  let rev := p.toList.reverse
  let headRev := rev.dropWhile (· ≠ '/')
  let res := if headRev.all (· = '/') then headRev else headRev.dropWhile (· = '/')
  ⟨res.reverse⟩

/-- `os.path.normpath(p)` (POSIX `posixpath.normpath`). -/
def normpath (p : String) : String :=
  if p = "" then "." else
  let cs := p.toList
  let initialSlashes : Nat :=
    if listStarts ['/'] cs then
      if listStarts ['/', '/'] cs ∧ ¬ listStarts ['/', '/', '/'] cs then 2 else 1
    else 0
  let comps : List String := (charSplit '/' cs).map (fun l => (⟨l⟩ : String))
  let newComps := comps.foldl (fun acc comp =>
    if comp = "" ∨ comp = "." then acc
    else if comp ≠ ".." ∨ (initialSlashes = 0 ∧ acc = []) ∨ acc.getLast? = some ".." then
      acc ++ [comp]
    else if acc ≠ [] then acc.dropLast
    else acc) []
  let joined := String.intercalate "/" newComps
  let res := (⟨List.replicate initialSlashes '/'⟩ : String) ++ joined
  if res = "" then "." else res

/-! ## The on-disk repository -/

/-- A file-system tree: the repository is the forest of entries of its root
directory. -/
inductive FSTree where
  | file (name : String) (content : String)
  | dir (name : String) (entries : List FSTree)
deriving Repr

def FSTree.nameOf : FSTree → String
  | .file n _ => n
  | .dir n _ => n

/-- What a path resolves to inside the repository. -/
inductive FSNode where
  | f (content : String)
  | d (entries : List FSTree)

/-- Resolve a list of path components against a forest, keeping an ancestor
stack for `..`.  `..` above the repository root is modelled as not found
(the analyzer never produces such paths for files inside the repository). -/
def lookupAux : List FSTree → List (List FSTree) → List String → Option FSNode
  | es, _, [] => some (.d es)
  | es, anc, comp :: rest =>
    if comp = "" ∨ comp = "." then lookupAux es anc rest
    else if comp = ".." then
      match anc with
      | [] => none
      | p :: ps => lookupAux p ps rest
    else
      match es.find? (fun t => t.nameOf == comp) with
      | some (.file _ content) => if rest.all (fun c => c = "" ∨ c = ".") then some (.f content) else none
      | some (.dir _ es') => lookupAux es' (es :: anc) rest
      | none => none

def pathComps (path : String) : List String :=
  (charSplit '/' path.toList).map (fun l => (⟨l⟩ : String))

/-- `os.path.exists(os.path.join(repo_path, path)) and os.path.isfile(...)`:
`path` is taken relative to the repository root.  A `path` starting with `/`
is absolute and escapes the modelled repository, hence not found. -/
def lookupIsFile (root : List FSTree) (path : String) : Bool :=
  if startsWithS path "/" then false
  else
    match lookupAux root [] (pathComps path) with
    | some (.f _) => true
    | _ => false

/-- `os.path.exists(os.path.join(repo_path, path))`. -/
def lookupExists (root : List FSTree) (path : String) : Bool :=
  if startsWithS path "/" then false
  else (lookupAux root [] (pathComps path)).isSome

/-- `open(os.path.join(repo_path, path)).read()` with `errors='ignore'`:
succeeds exactly on regular files. -/
def readFile? (root : List FSTree) (path : String) : Option String :=
  if startsWithS path "/" then none
  else
    match lookupAux root [] (pathComps path) with
    | some (.f c) => some c
    | _ => none

/-! ## The knowledge graph (`networkx.DiGraph`) -/

/-- Node attribute dictionaries as the analyzer writes them:
`type='file', size=…` in pass 1; `type='entity', name=…, kind=…, filePath=…,
snippet=…, line=…` for symbols; `entityLite` is the attribute set written by
the legacy `analyser.py` (`type='entity', name=…`); `bare` is a node created
implicitly by `add_edge` for a missing endpoint. -/
inductive NodeData where
  | fileNode (size : Nat)
  | entityNode (name kind filePath snippet : String) (line : Nat)
  | entityLite (name : String)
  | bare
deriving DecidableEq

structure Edge where
  src : String
  tgt : String
  relation : String
deriving DecidableEq

/-- Insertion-ordered digraph; at most one edge per ordered pair, as in
`networkx.DiGraph`. -/
structure Graph where
  nodes : List (String × NodeData)
  edges : List Edge
deriving DecidableEq

def Graph.empty : Graph := ⟨[], []⟩

/-- Upsert into an insertion-ordered association list. -/
def upsertA {β : Type} (l : List (String × β)) (k : String) (v : β) : List (String × β) :=
  if l.any (fun p => p.1 == k) then
    l.map (fun p => if p.1 == k then (k, v) else p)
  else l ++ [(k, v)]

/-- `graph.add_node(k, **attrs)`. -/
def addNode (g : Graph) (k : String) (d : NodeData) : Graph :=
  { g with nodes := upsertA g.nodes k d }

/-- `add_edge` creates missing endpoints as attribute-less nodes. -/
def ensureNode (g : Graph) (k : String) : Graph :=
  if g.nodes.any (fun p => p.1 == k) then g else { g with nodes := g.nodes ++ [(k, .bare)] }

/-- `graph.add_edge(s, t, relation=r)`. -/
def addEdge (g : Graph) (s t r : String) : Graph :=
  let g1 := ensureNode (ensureNode g s) t
  if g1.edges.any (fun e => e.src == s && e.tgt == t) then
    { g1 with edges := g1.edges.map (fun e => if e.src == s && e.tgt == t then { e with relation := r } else e) }
  else
    { g1 with edges := g1.edges ++ [⟨s, t, r⟩] }

/-! ## Import resolution (`RepoAnalyzer._resolve_import_path`) -/

/-- `LANGUAGE_MAP` of `analyzer.py`. -/
def languageMap : List (String × String) :=
  [(".ts", "typescript"), (".tsx", "typescript"), (".js", "javascript"),
   (".jsx", "javascript"), (".py", "python"), (".java", "java"),
   (".go", "go"), (".rs", "rust")]

def languageExts : List String := languageMap.map (·.1)

/-- `QUERIES` has entries for these languages only. -/
def hasQuery (lang : String) : Bool :=
  lang == "typescript" || lang == "javascript" || lang == "python"

/-- The alias loop of step 1: first alias whose wildcard-stripped prefix
matches, and which has at least one target, wins (`break`); an alias whose
prefix matches but whose target list is empty does not break the loop. -/
def aliasStep (baseUrl imp : String) : List (String × List String) → String
  | [] => imp
  | (al, targets) :: rest =>
    let aliasPre := strReplace al "*" ""
    if startsWithS imp aliasPre then
      match targets with
      | [] => aliasStep baseUrl imp rest
      | t :: _ => pathJoin3 baseUrl (strReplace t "*" "") (dropS imp aliasPre.length)
    else aliasStep baseUrl imp rest

/-- Steps 1–3 of `_resolve_import_path`: alias substitution, relative-path
resolution, normalization (backslashes to `/`, strip one leading `/`). -/
def normalizeImport (tsPaths : List (String × List String)) (baseUrl currentFile importStr : String) : String :=
  let resolved := aliasStep baseUrl importStr tsPaths
  let resolved :=
    if startsWithS importStr "." then
      normpath (pathJoin (dirname currentFile) importStr)
    else resolved
  let resolved : String := ⟨resolved.toList.map (fun c => if c = '\\' then '/' else c)⟩
  if startsWithS resolved "/" then dropS resolved 1 else resolved

/-- The fixed probe list of step 4 (`possible_extensions`). -/
def possibleExtensions : List String :=
  [".ts", ".tsx", ".js", ".jsx", "/index.ts", "/index.tsx", "/index.js", ""]

/-- A candidate is accepted if it is a key of `file_map` or a regular file
on disk. -/
def isHitCand (fm : List (String × String)) (root : List FSTree) (candidate : String) : Bool :=
  fm.any (fun p => p.1 == candidate) || lookupIsFile root candidate

/-- Step 4: first probe suffix whose candidate hits wins. -/
def probePhysical (fm : List (String × String)) (root : List FSTree) (resolved : String) : Option String :=
  possibleExtensions.findSome? (fun ext =>
    let c := resolved ++ ext
    if isHitCand fm root c then some c else none)

/-- `RepoAnalyzer._resolve_import_path` (returns `None` as `none`). -/
def resolveImportPath (tsPaths : List (String × List String)) (baseUrl : String)
    (fm : List (String × String)) (root : List FSTree)
    (currentFile importStr : String) : Option String :=
  probePhysical fm root (normalizeImport tsPaths baseUrl currentFile importStr)

/-! ## Pass 1: file collection (`RepoAnalyzer.analyze`, first loop) -/

/-- The in-place `dirs[:] = [d for d in dirs if d not in …]` filter set. -/
def ignoreDirs : List String :=
  [".git", "node_modules", "dist", "build", "__pycache__", ".next"]

/-- `file.endswith(tuple(LANGUAGE_MAP.keys())) or file.endswith(('.json', '.md', '.txt'))`. -/
def acceptedExts : List String := languageExts ++ [".json", ".md", ".txt"]

mutual
/-- Structural size of a tree, used only as traversal fuel below. -/
def FSTree.size : FSTree → Nat
  | .file _ _ => 1
  | .dir _ es => 1 + FSTree.sizeL es
/-- Structural size of a forest. -/
def FSTree.sizeL : List FSTree → Nat
  | [] => 0
  | t :: ts => 1 + FSTree.size t + FSTree.sizeL ts
end

mutual
/-- Directory names produced by a real `os.walk` are never empty; trees
with empty directory names are outside the OS-reachable model space. -/
def FSTree.namesOk : FSTree → Bool
  | .file _ _ => true
  | .dir n es => (n != "") && FSTree.namesOkL es
/-- `namesOk` over a forest. -/
def FSTree.namesOkL : List FSTree → Bool
  | [] => true
  | t :: ts => t.namesOk && FSTree.namesOkL ts
end

structure Pass1Acc where
  fileMap : List (String × String)
  graph : Graph
  fileTree : List String
deriving DecidableEq

/-- `os.path.relpath(os.path.join(root, name), repo_path)` with `/` separators. -/
def joinRel (relDir name : String) : String :=
  if relDir = "" then name else relDir ++ "/" ++ name

/-- The body of the `for file in files:` loop of one `os.walk` step, folded
over the entries of one directory (only `file` entries are in `files`).
`handler` is what a successfully read accepted file does to the
accumulator; a path in `failReads` raises inside the `try` and is skipped. -/
def filesPhase (exts failReads : List String)
    (handler : Pass1Acc → String → String → Pass1Acc)
    (relDir : String) (acc : Pass1Acc) (entries : List FSTree) : Pass1Acc :=
  entries.foldl (fun a t =>
    match t with
    | .file nm content =>
      if endsWithAnyS nm exts then
        let rel := joinRel relDir nm
        if failReads.contains rel then a else handler a rel content
      else a
    | .dir _ _ => a) acc

/-- The descent of `os.walk` (top-down, depth first, in listing order) after
`dirs[:]` pruning: sub-directories whose name is in `ignore` are removed
from the traversal list before descending and are never visited.  The fuel
is only a structural-recursion device; `sizeOf` of the forest is always
enough (see `walkTop`). -/
def walkDirs (ignore exts failReads : List String)
    (handler : Pass1Acc → String → String → Pass1Acc) :
    Nat → String → Pass1Acc → List FSTree → Pass1Acc
  | 0, _, acc, _ => acc
  | _ + 1, _, acc, [] => acc
  | fuel + 1, relDir, acc, .file _ _ :: rest =>
    walkDirs ignore exts failReads handler fuel relDir acc rest
  | fuel + 1, relDir, acc, .dir d es :: rest =>
    let acc' :=
      if ignore.contains d then acc
      else
        let childRel := joinRel relDir d
        walkDirs ignore exts failReads handler fuel childRel
          (filesPhase exts failReads handler childRel acc es) es
    walkDirs ignore exts failReads handler fuel relDir acc' rest

/-- One full `os.walk(repo_path)` pass over the root's entries. -/
def walkTop (ignore exts failReads : List String)
    (handler : Pass1Acc → String → String → Pass1Acc)
    (entries : List FSTree) (acc : Pass1Acc) : Pass1Acc :=
  walkDirs ignore exts failReads handler (FSTree.sizeL entries) ""
    (filesPhase exts failReads handler "" acc entries) entries

/-- What `analyzer.py` does with one successfully read accepted file:
store the content, add a `type='file'` node, append to `file_tree`. -/
def analyzerHandler (acc : Pass1Acc) (rel content : String) : Pass1Acc :=
  { fileMap := upsertA acc.fileMap rel content,
    graph := addNode acc.graph rel (.fileNode content.length),
    fileTree := acc.fileTree ++ [rel] }

/-! ## Pass 2: symbol and import extraction (`_parse_dependencies`) -/

/-- One tree-sitter query capture: tag and byte span (`node.start_byte`,
`node.end_byte`, `node.start_point[0]`). -/
structure Capture where
  tag : String
  startB : Nat
  endB : Nat
  row : Nat
deriving DecidableEq

/-- `content[node.start_byte:node.end_byte].strip('"\'')`. -/
def captureText (content : String) (cap : Capture) : String :=
  stripQuotes (sliceStr content cap.startB cap.endB)

/-- `os.path.splitext(filename)[1]` (POSIX). -/
def extOf (filename : String) : String :=
  let base := (lastComp filename).toList
  let lead := base.takeWhile (· = '.')
  let rest := base.drop lead.length
  let afterDot := rest.reverse.takeWhile (· ≠ '.')
  if afterDot.length = rest.length then ""
  else ⟨'.' :: afterDot.reverse⟩

def langOf (ext : String) : Option String :=
  (languageMap.find? (fun p => p.1 == ext)).map (·.2)

/-- The captures `_parse_dependencies` actually iterates over: none when
tree-sitter is unavailable, the extension has no language, or the language
has no query; the oracle's captures otherwise. -/
def effectiveCaptures (avail : Bool) (oracle : String → String → List Capture)
    (filename content : String) : List Capture :=
  if avail then
    match langOf (extOf filename) with
    | none => []
    | some lang => if hasQuery lang then oracle lang content else []
  else []

def defineTags : List String := ["class_name", "interface_name", "type_name", "func_name"]

/-- The body of the `for node, tag in captures:` loop. -/
def processCapture (tsPaths : List (String × List String)) (baseUrl : String)
    (fm : List (String × String)) (root : List FSTree)
    (relPath content : String) (g : Graph) (cap : Capture) : Graph :=
  let text := captureText content cap
  if cap.tag == "import_path" then
    match resolveImportPath tsPaths baseUrl fm root relPath text with
    | some resolved => addEdge g relPath resolved "imports"
    | none => g
  else if defineTags.contains cap.tag then
    let nodeId := relPath ++ "::" ++ text
    let kind := strReplace cap.tag "_name" ""
    let snippet := sliceStr content cap.startB (min cap.endB (cap.startB + 300))
    addEdge (addNode g nodeId (.entityNode text kind relPath snippet (cap.row + 1)))
      relPath nodeId "defines"
  else g

/-- `RepoAnalyzer._parse_dependencies` (called with `filename = rel_path`). -/
def parseDependencies (avail : Bool) (oracle : String → String → List Capture)
    (tsPaths : List (String × List String)) (baseUrl : String)
    (fm : List (String × String)) (root : List FSTree)
    (g : Graph) (relPath content : String) : Graph :=
  (effectiveCaptures avail oracle relPath content).foldl
    (processCapture tsPaths baseUrl fm root relPath content) g

/-! ## The analyzer session and `analyze` -/

structure AnalyzerState where
  fileMap : List (String × String)
  graph : Graph
  treeStructure : String
  tsconfigPaths : List (String × List String)
  tsconfigBaseUrl : String
deriving DecidableEq

/-- A freshly constructed `RepoAnalyzer` whose `_load_tsconfig` produced the
given alias configuration. -/
def mkState (tsPaths : List (String × List String)) (baseUrl : String) : AnalyzerState :=
  { fileMap := [], graph := Graph.empty, treeStructure := "",
    tsconfigPaths := tsPaths, tsconfigBaseUrl := baseUrl }

/-- `RepoAnalyzer.analyze` of `analyzer.py`.  `fs = none` means the
repository root does not exist (`os.path.exists(self.repo_path)` false); the
method then returns immediately, leaving the session untouched and raising
nothing.  Pass 2 runs only after pass 1 has finished, over the fully
populated `file_map`, which is also what every `_resolve_import_path` call
consults. -/
def analyze (st : AnalyzerState) (fs : Option (List FSTree)) (failReads : List String)
    (avail : Bool) (oracle : String → String → List Capture) : Except String AnalyzerState :=
  match fs with
  | none => .ok st
  | some entries =>
    let acc := walkTop ignoreDirs acceptedExts failReads analyzerHandler entries
      ⟨st.fileMap, st.graph, []⟩
    let g2 := acc.fileMap.foldl (fun g pc =>
      if endsWithAnyS pc.1 languageExts then
        parseDependencies avail oracle st.tsconfigPaths st.tsconfigBaseUrl
          acc.fileMap entries g pc.1 pc.2
      else g) acc.graph
    .ok ({ st with
            fileMap := acc.fileMap
            graph := g2
            treeStructure := String.intercalate "\n" (acc.fileTree.take 500) })

def resultOf (d : AnalyzerState) : Except String AnalyzerState → AnalyzerState
  | .ok s => s
  | .error _ => d

/-- `analyze` run on a fresh session. -/
def analyzeRun (tsPaths : List (String × List String)) (baseUrl : String)
    (entries : List FSTree) (failReads : List String)
    (avail : Bool) (oracle : String → String → List Capture) : AnalyzerState :=
  resultOf (mkState tsPaths baseUrl)
    (analyze (mkState tsPaths baseUrl) (some entries) failReads avail oracle)

/-! ## The legacy variant (`analyser.py`) -/

def analyserIgnore : List String :=
  [".git", "node_modules", "dist", "build", "__pycache__", "venv", ".next"]

def analyserExts : List String := [".ts", ".tsx", ".js", ".jsx", ".json", ".md", ".py"]

/-- `analyser.py._parse_dependencies`: no import resolution — a relative
raw import string becomes an edge target verbatim; only classes and interfaces
become entities, with `type='entity', name=…` attributes only. -/
def analyserParse (oracle : String → String → List Capture)
    (g : Graph) (relPath content : String) : Graph :=
  (oracle "typescript" content).foldl (fun g cap =>
    let text := captureText content cap
    if cap.tag == "import_path" then
      if startsWithS text "." then addEdge g relPath text "imports" else g
    else if cap.tag == "class_name" || cap.tag == "interface_name" then
      let nodeId := relPath ++ "::" ++ text
      addEdge (addNode g nodeId (.entityLite text)) relPath nodeId "defines"
    else g) g

/-- The per-file body of `analyser.py.analyze` (parsing interleaved with
collection, unlike `analyzer.py`). -/
def analyserHandler (avail : Bool) (oracle : String → String → List Capture)
    (acc : Pass1Acc) (rel content : String) : Pass1Acc :=
  let acc := { fileMap := upsertA acc.fileMap rel content,
               graph := addNode acc.graph rel (.fileNode content.length),
               fileTree := acc.fileTree ++ [rel] }
  if avail ∧ endsWithAnyS rel [".ts", ".tsx", ".js"] then
    { acc with graph := analyserParse oracle acc.graph rel content }
  else acc

structure AnalyserState where
  fileMap : List (String × String)
  graph : Graph
  treeStructure : String
deriving DecidableEq

/-- `analyser.py.analyze`: raises `ValueError` when the root does not exist,
otherwise walks and parses in one pass. -/
def analyserAnalyze (st : AnalyserState) (fs : Option (List FSTree))
    (failReads : List String) (avail : Bool)
    (oracle : String → String → List Capture) : Except String AnalyserState :=
  match fs with
  | none => .error "Repository path does not exist"
  | some entries =>
    let acc := walkTop analyserIgnore analyserExts failReads
      (analyserHandler avail oracle) entries ⟨st.fileMap, st.graph, []⟩
    .ok ({ fileMap := acc.fileMap
           graph := acc.graph
           treeStructure := String.intercalate "\n" (acc.fileTree.take 500) })

/-! ## The `/reanalyze` endpoint (`main.py reanalyze_file_endpoint`) -/

/-- `reanalyze_file_endpoint`, up to the state mutation it performs on the
active analyzer: 404 when `os.path.join(repo_path, file_path)` does not
exist; otherwise the file is read, `file_map[file_path]` is updated, and a
FULL `analyze()` is run on top of the existing session.  (The endpoint then
calls `ingest_current_state`, a method `RepoAnalyzer` does not define, so
the HTTP response is always a 500 — but the session mutation made here has
already happened on the shared global analyzer and persists.) -/
def reanalyzeFile (st : AnalyzerState) (fs : Option (List FSTree))
    (failReads : List String) (avail : Bool)
    (oracle : String → String → List Capture) (filePath : String) :
    Except String AnalyzerState :=
  match fs with
  | none => .error "File not found"
  | some entries =>
    if lookupExists entries filePath then
      match readFile? entries filePath with
      | none => .error "Internal error"
      | some content =>
        analyze ({ st with fileMap := upsertA st.fileMap filePath content })
          (some entries) failReads avail oracle
    else .error "File not found"

/-! ## Context extraction (`RepoAnalyzer.get_context`) -/

def MAX_CHARS : Nat := 35000

def truncationMarker : String := "\n\n... [Context Truncated Limit Reached] ...\n"

/-- The `add_to_context` closure: returns (whether the chunk was appended,
the new accumulator).  When the chunk does not fit but the accumulator is
still under the ceiling, the truncation marker is appended — without itself
being checked against the ceiling. -/
def addToContext (maxChars : Nat) (ctx header content : String) : Bool × String :=
  if maxChars ≤ ctx.length then (false, ctx)
  else
    let chunk := "\n--- " ++ header ++ " ---\n" ++ content ++ "\n"
    if maxChars < ctx.length + chunk.length then (false, ctx ++ truncationMarker)
    else (true, ctx ++ chunk)

def lookupContent (fm : List (String × String)) (k : String) : Option String :=
  (fm.find? (fun p => p.1 == k)).map (·.2)

/-- The `components` branch loop (`break` on budget or on a failed add). -/
def componentsLoop : List (String × String) → String → String
  | [], ctx => ctx
  | (path, content) :: rest, ctx =>
    if MAX_CHARS ≤ ctx.length then ctx
    else if endsWithS path ".tsx" ∧ ¬ containsS path ".test." then
      let componentName := strReplace (lastComp path) ".tsx" ""
      if containsS content "export default function" ∨ containsS content ("const " ++ componentName) then
        let r := addToContext MAX_CHARS ctx ("Component: " ++ path) content
        if r.1 then componentsLoop rest r.2 else r.2
      else componentsLoop rest ctx
    else componentsLoop rest ctx

/-- Stable insertion into a list sorted by `key` (ties keep earlier elements
first, as Python's stable `sorted`). -/
def insertByKey (key : String → Nat) (x : String) : List String → List String
  | [] => [x]
  | y :: ys => if key x < key y then x :: y :: ys else y :: insertByKey key x ys

def sortByKey (key : String → Nat) (l : List String) : List String :=
  l.foldl (fun acc x => insertByKey key x acc) []

/-- `list(set(...))` keeping first occurrences (a deterministic choice for
Python's unordered set iteration). -/
def dedupFirst (l : List String) : List String :=
  l.foldl (fun acc x => if acc.contains x then acc else acc ++ [x]) []

/-- Python `s.split('::')[0]`: the prefix before the first `::`. -/
def beforeSepCC (cs : List Char) : List Char :=
  match cs with
  | [] => []
  | c :: rest => if listStarts [':', ':'] (c :: rest) then [] else c :: beforeSepCC rest

def splitHeadCC (s : String) : String := ⟨beforeSepCC s.toList⟩

/-- The `erd` branch loop. -/
def erdLoop (fm : List (String × String)) : List String → String → String
  | [], ctx => ctx
  | f :: rest, ctx =>
    if fm.any (fun p => p.1 == f) then
      let r := addToContext MAX_CHARS ctx ("Entity File: " ++ f) ((lookupContent fm f).getD "")
      if r.1 then erdLoop fm rest r.2 else r.2
    else erdLoop fm rest ctx

def setupFileNames : List String :=
  ["README.md", "package.json", "requirements.txt", "pyproject.toml", "Pipfile",
   "docker-compose.yml", "Dockerfile", ".env.example", ".env.sample",
   "tsconfig.json", "vite.config.ts"]

/-- First `setup` loop: the fixed list of well-known files. -/
def setupLoop1 (fm : List (String × String)) : List String → String → String
  | [], ctx => ctx
  | f :: rest, ctx =>
    if fm.any (fun p => p.1 == f) then
      let r := addToContext MAX_CHARS ctx f ((lookupContent fm f).getD "")
      if r.1 then setupLoop1 fm rest r.2 else r.2
    else setupLoop1 fm rest ctx

/-- Second `setup` loop: environment/config scripts by path heuristic. -/
def setupLoop2 : List (String × String) → String → String
  | [], ctx => ctx
  | (path, content) :: rest, ctx =>
    if (["env", "config", "setup", "install"].any (fun k => containsS (lowerStr path) k)) ∧
        endsWithAnyS path [".md", ".txt", ".json", ".ts", ".js", ".yml", ".yaml"] then
      let r := addToContext MAX_CHARS ctx ("Setup Related: " ++ path) content
      if r.1 then setupLoop2 rest r.2 else r.2
    else setupLoop2 rest ctx

/-- The `sequence` branch loop. -/
def sequenceLoop : List (String × String) → String → String
  | [], ctx => ctx
  | (path, content) :: rest, ctx =>
    if ["controller", "service", "usecase", "page.tsx"].any (fun k => containsS (lowerStr path) k) then
      let r := addToContext MAX_CHARS ctx ("Entry Point: " ++ path) content
      if r.1 then sequenceLoop rest r.2 else r.2
    else sequenceLoop rest ctx

/-- The `arch` branch loop over the fixed config-file list. -/
def archLoop (fm : List (String × String)) : List String → String → String
  | [], ctx => ctx
  | f :: rest, ctx =>
    if fm.any (fun p => p.1 == f) then
      let r := addToContext MAX_CHARS ctx f ((lookupContent fm f).getD "")
      if r.1 then archLoop fm rest r.2 else r.2
    else archLoop fm rest ctx

/-- `RepoAnalyzer.get_context`.  The `api_ref` branch (regex-driven DTO
search and barrel-chain expansion over a 100 000-character budget) is not
modelled, hence the `Option` result: `none` for `api_ref`, the branch's
string for every other module type (an unknown module type returns the
initial empty accumulator, as in the source's `if/elif` chain). -/
def getContext? (st : AnalyzerState) (moduleType : String) : Option String :=
  if moduleType = "api_ref" then none
  else some (
    if moduleType = "components" then componentsLoop st.fileMap ""
    else if moduleType = "erd" then
      let entityNodeIds := (st.graph.nodes.filter (fun p =>
        match p.2 with
        | .entityNode _ _ _ _ _ => true
        | .entityLite _ => true
        | _ => false)).map (·.1)
      let files := sortByKey (fun f => ((lookupContent st.fileMap f).getD "").length)
        (dedupFirst (entityNodeIds.map splitHeadCC))
      erdLoop st.fileMap files ""
    else if moduleType = "root" then
      let r1 := addToContext MAX_CHARS "" "package.json" ((lookupContent st.fileMap "package.json").getD "")
      let r2 := addToContext MAX_CHARS r1.2 "Project Structure" st.treeStructure
      r2.2
    else if moduleType = "setup" then
      setupLoop2 st.fileMap (setupLoop1 st.fileMap setupFileNames "")
    else if moduleType = "sequence" then sequenceLoop st.fileMap ""
    else if moduleType = "arch" then
      archLoop st.fileMap ["package.json", "tsconfig.json", "vite.config.ts",
        "docker-compose.yml", "Dockerfile"] (st.treeStructure ++ "\n")
    else "")

/-! ## Predicates and concrete repositories used by the theorems -/

def nodeKeys (g : Graph) : List String := g.nodes.map (·.1)

def edgeKeys (g : Graph) : List (String × String) := g.edges.map (fun e => (e.src, e.tgt))

def fmKeys (fm : List (String × String)) : List String := fm.map (·.1)

/-- The `defines` edges of `g` whose target is `n`. -/
def definesInto (g : Graph) (n : String) : List Edge :=
  g.edges.filter (fun e => e.relation == "defines" && e.tgt == n)

def NodeData.isEntity : NodeData → Bool
  | .entityNode _ _ _ _ _ => true
  | .entityLite _ => true
  | _ => false

/-- Invariant of the collection pass when started on a fresh session:
no edges yet, and the graph nodes are exactly `type='file'` nodes for the
collected paths. -/
def Pass1Inv (acc : Pass1Acc) : Prop :=
  acc.graph.edges = [] ∧
  (∀ p ∈ acc.graph.nodes, (∃ sz, p.2 = NodeData.fileNode sz) ∧ p.1 ∈ fmKeys acc.fileMap) ∧
  (∀ k ∈ fmKeys acc.fileMap, ∃ sz, (k, NodeData.fileNode sz) ∈ acc.graph.nodes)

/-- Well-formedness of one graph node during the dependency pass:
file nodes are keyed by collected paths; attribute-less nodes (implicitly
created edge endpoints) never look like symbol ids; symbol nodes are keyed
`filePath::name`, their name is colon-free, their file is collected, and
exactly one `defines` edge — from that file — targets them. -/
def NodeOk (fm : List (String × String)) (g : Graph) (p : String × NodeData) : Prop :=
  match p.2 with
  | .fileNode _ => p.1 ∈ fmKeys fm
  | .bare => containsS p.1 "::" = false
  | .entityLite _ => False
  | .entityNode nm _ fp _ _ =>
      p.1 = fp ++ "::" ++ nm ∧ ':' ∉ nm.toList ∧ fp ∈ fmKeys fm ∧
      definesInto g p.1 = [⟨fp, p.1, "defines"⟩]

/-- Well-formedness of one edge: a `defines` edge targets an existing symbol
node of its source file; an `imports` edge targets a path that cannot
collide with a symbol id. -/
def EdgeOk (g : Graph) (e : Edge) : Prop :=
  (e.relation = "defines" ∧ ∃ nm kd sn ln,
     (e.tgt, NodeData.entityNode nm kd e.src sn ln) ∈ g.nodes ∧
     e.tgt = e.src ++ "::" ++ nm ∧ ':' ∉ nm.toList) ∨
  (e.relation = "imports" ∧ containsS e.tgt "::" = false)

/-- The graph invariant maintained through the dependency pass. -/
def GoodGraph (fm : List (String × String)) (g : Graph) : Prop :=
  (∀ p ∈ g.nodes, NodeOk fm g p) ∧
  (∀ e ∈ g.edges, EdgeOk g e) ∧
  (∀ k ∈ fmKeys fm, ∃ sz, (k, NodeData.fileNode sz) ∈ g.nodes)

/-- A relative path that the collection walk may legitimately produce:
reachable through directories none of which is in the ignore set, ending at
a file with an accepted extension.  `analyze` only ever collects such paths
(theorem `c10_ignore_pruning`), which is the ignore-pruning guarantee: no
file beneath an ignored directory, at any depth, is collected. -/
inductive Collectible : List FSTree → String → Prop
  | here {entries : List FSTree} {nm content : String} :
      FSTree.file nm content ∈ entries → endsWithAnyS nm acceptedExts = true →
      Collectible entries nm
  | there {entries : List FSTree} {d p : String} {es : List FSTree} :
      FSTree.dir d es ∈ entries → d ∉ ignoreDirs → Collectible es p →
      Collectible entries (d ++ "/" ++ p)

/-- Repository used for the per-file-failure part of C1: reading `b.md`
raises, collection of `c.md` continues. -/
def c1Files : List FSTree := [.file "a.md" "1", .file "b.md" "2", .file "c.md" "3"]

def oracle0 : String → String → List Capture := fun _ _ => []

/-- A session state whose `tree_structure` alone exceeds the 35 000-character
ceiling (any repository with enough files of long paths produces one). -/
def stBig : AnalyzerState :=
  { fileMap := [("x.md", "hello")]
    graph := Graph.empty
    treeStructure := ⟨List.replicate 35001 'a'⟩
    tsconfigPaths := []
    tsconfigBaseUrl := "." }

/-- Small state used to witness the context bound on the `root` branch. -/
def stRootW : AnalyzerState :=
  { fileMap := [("package.json", "{}")]
    graph := Graph.empty
    treeStructure := "package.json"
    tsconfigPaths := []
    tsconfigBaseUrl := "." }

/-- Repository for the two-pass demonstration of C8: `a.ts` is walked before
`z.ts` yet its import of `./z` resolves, because resolution only runs after
collection has completed. -/
def c8Files : List FSTree := [.file "a.ts" "import './z'", .file "z.ts" "const z = 1"]

def c8Oracle : String → String → List Capture := fun _ c =>
  if c = "import './z'" then [⟨"import_path", 7, 12, 0⟩] else []

/-- Initial repository state for the C7 scenario. -/
def c7Fs1 : List FSTree := [.file "a.ts" "class A {}", .file "b.ts" "class B {}"]

/-- On-disk state after the user edited both `a.ts` and `b.ts`; the endpoint
is then asked to re-analyze only `a.ts`. -/
def c7Fs2 : List FSTree := [.file "a.ts" "class A2 {}", .file "b.ts" "class B2 {}"]

def c7Oracle : String → String → List Capture := fun _ c =>
  if c = "class A {}" ∨ c = "class B {}" then [⟨"class_name", 6, 7, 0⟩]
  else if c = "class A2 {}" ∨ c = "class B2 {}" then [⟨"class_name", 6, 8, 0⟩]
  else []

def c7St1 : AnalyzerState := analyzeRun [] "." c7Fs1 [] true c7Oracle

def c7St2 : AnalyzerState :=
  resultOf (mkState [] ".") (reanalyzeFile c7St1 (some c7Fs2) [] true c7Oracle "a.ts")

/-- Repository with a file nested two levels below `node_modules`. -/
def c10Entries : List FSTree :=
  [.dir "src" [.file "a.ts" "x"],
   .dir "node_modules" [.dir "pkg" [.file "deep.ts" "y"]]]

/-- Repository and oracle for the C6 witness: one class, one import. -/
def c6Entries : List FSTree :=
  [.file "a.ts" "import './b'", .file "b.ts" "class B {}"]

def c6Oracle : String → String → List Capture := fun _ c =>
  if c = "import './b'" then [⟨"import_path", 7, 12, 0⟩]
  else if c = "class B {}" then [⟨"class_name", 6, 7, 0⟩]
  else []

/-! ## Claim C3: alias resolution -/

/-- C3 (counterexample): with alias config `{"@/*": ["src/*"]}` and base url
`.`, the normalized pre-probe path for import `"@/utils/math"` is NOT
`src/utils/math` — `os.path.join('.', 'src/', 'utils/math')` keeps the
leading `./`, and normalization only strips a leading `/`. -/
theorem c3_counterexample :
    normalizeImport [("@/*", ["src/*"])] "." "pages/home.tsx" "@/utils/math" ≠ "src/utils/math" := by
  decide

/-- C3 (amended): from any current file, the normalized candidate produced
before extension probing is `./src/utils/math` (first target pattern
substituted, wildcards stripped, joined with the base url `.`, leading `./`
retained). -/
theorem c3_alias_resolution (currentFile : String) :
    normalizeImport [("@/*", ["src/*"])] "." currentFile "@/utils/math" = "./src/utils/math" := rfl

/-! ## Claim C4: extension probing order -/

/-- C4 (counterexample): the verbatim candidate is probed LAST, not first.
Here the normalized path `a` is itself a key of `file_map`, yet probing
returns `a.ts`, because the suffix `.ts` precedes the empty suffix in
`possible_extensions`. -/
theorem c4_counterexample :
    normalizeImport [] "." "f.ts" "a" = "a" ∧
    isHitCand [("a", "A"), ("a.ts", "T")] [] "a" = true ∧
    resolveImportPath [] "." [("a", "A"), ("a.ts", "T")] [] "f.ts" "a" = some "a.ts" := by
  decide

/-- C4 (amended): physical resolution probes the fixed ordered suffix list
`.ts, .tsx, .js, .jsx, /index.ts, /index.tsx, /index.js` and the verbatim
path last (empty suffix), accepting the first candidate present in
`file_map` or on disk; in particular whenever `x.ts` is a hit — e.g. when
both `x.ts` and `x.js` exist — probing `x` resolves to `x.ts`. -/
theorem c4_probe_order (fm : List (String × String)) (root : List FSTree) (x : String)
    (h : isHitCand fm root (x ++ ".ts") = true) :
    possibleExtensions = [".ts", ".tsx", ".js", ".jsx", "/index.ts", "/index.tsx", "/index.js", ""] ∧
    probePhysical fm root x = some (x ++ ".ts") := by
  refine ⟨rfl, ?_⟩
  simp [probePhysical, possibleExtensions, List.findSome?_cons, h]

/-- Witness for `c4_probe_order` at a concrete repository where both `m.ts`
and `m.js` are collected. -/
theorem c4_probe_order_witness :
    isHitCand [("m.ts", ""), ("m.js", "")] [] ("m" ++ ".ts") = true ∧
    probePhysical [("m.ts", ""), ("m.js", "")] [] "m" = some ("m" ++ ".ts") :=
  ⟨by decide, (c4_probe_order [("m.ts", ""), ("m.js", "")] [] "m" (by decide)).2⟩

/-! ## Claim C5: unresolvable imports -/

/-- C5: an import matching no alias, not relative, and with no existing
probe candidate resolves to `none` (no exception is possible: the embedding
is total, as is the Python code path), and the capture-processing step adds
no edge and leaves the graph unchanged. -/
theorem c5_unresolved_no_edge (tsPaths : List (String × List String)) (baseUrl : String)
    (fm : List (String × String)) (root : List FSTree) (rel imp content : String)
    (g : Graph) (cap : Capture)
    (hAlias : ∀ p ∈ tsPaths, startsWithS imp (strReplace p.1 "*" "") = false)
    (hRel : startsWithS imp "." = false)
    (hNoHit : ∀ ext ∈ possibleExtensions,
      isHitCand fm root (normalizeImport tsPaths baseUrl rel imp ++ ext) = false) :
    resolveImportPath tsPaths baseUrl fm root rel imp = none ∧
    (cap.tag = "import_path" → captureText content cap = imp →
      processCapture tsPaths baseUrl fm root rel content g cap = g) := by
  have hres : resolveImportPath tsPaths baseUrl fm root rel imp = none := by
    unfold resolveImportPath probePhysical
    rw [List.findSome?_eq_none_iff]
    intro ext hext
    simp [hNoHit ext hext]
  refine ⟨hres, fun htag htext => ?_⟩
  unfold processCapture
  simp only [htext, htag, beq_self_eq_true, if_pos, hres]

/-- Witness for `c5_unresolved_no_edge`: the external import `react` in a
repository with one file and one configured alias. -/
theorem c5_unresolved_no_edge_witness :
    (∀ p ∈ [("@/*", ["src/*"])], startsWithS "react" (strReplace p.1 "*" "") = false) ∧
    startsWithS "react" "." = false ∧
    (∀ ext ∈ possibleExtensions,
      isHitCand [("a.ts", "x")] [.file "a.ts" "x"]
        (normalizeImport [("@/*", ["src/*"])] "." "a.ts" "react" ++ ext) = false) ∧
    resolveImportPath [("@/*", ["src/*"])] "." [("a.ts", "x")] [.file "a.ts" "x"] "a.ts" "react" = none ∧
    processCapture [("@/*", ["src/*"])] "." [("a.ts", "x")] [.file "a.ts" "x"] "a.ts"
      "import react" Graph.empty ⟨"import_path", 7, 12, 0⟩ = Graph.empty := by
  have h1 : ∀ p ∈ [("@/*", ["src/*"])], startsWithS "react" (strReplace p.1 "*" "") = false := by decide
  have h2 : startsWithS "react" "." = false := by decide
  have h3 : ∀ ext ∈ possibleExtensions,
      isHitCand [("a.ts", "x")] [.file "a.ts" "x"]
        (normalizeImport [("@/*", ["src/*"])] "." "a.ts" "react" ++ ext) = false := by decide
  have main := c5_unresolved_no_edge [("@/*", ["src/*"])] "." [("a.ts", "x")]
    [.file "a.ts" "x"] "a.ts" "react" "import react" Graph.empty
    ⟨"import_path", 7, 12, 0⟩ h1 h2 h3
  exact ⟨h1, h2, h3, main.1, main.2 rfl (by decide)⟩

/-! ## Claim C1: fatality of a missing repository root -/

/-- C1 (counterexample): in `analyzer.py` — the variant `main.py` imports —
`analyze` does NOT raise when the repository root does not exist: it
returns normally, leaving the session unchanged. -/
theorem c1_counterexample :
    analyze (mkState [] ".") none [] true oracle0 = Except.ok (mkState [] ".") := rfl

/-- C1 (amended): `analyzer.py`'s `analyze` never raises at all — on a
missing root it silently returns with the session unchanged; the legacy
`analyser.py` variant is the one that raises (`ValueError`), and it raises
exactly when the root is missing; per-file read failures are non-fatal and
collection of the remaining files continues (here `b.md` fails to read
while `a.md` and `c.md` are still collected). -/
theorem c1_missing_root :
    (∀ st fs failReads avail oracle, ∃ st', analyze st fs failReads avail oracle = .ok st') ∧
    (∀ st failReads avail oracle, analyze st none failReads avail oracle = .ok st) ∧
    (∀ st failReads avail oracle,
      analyserAnalyze st none failReads avail oracle = .error "Repository path does not exist") ∧
    (∀ st entries failReads avail oracle,
      ∃ st', analyserAnalyze st (some entries) failReads avail oracle = .ok st') ∧
    fmKeys (analyzeRun [] "." c1Files ["b.md"] true oracle0).fileMap = ["a.md", "c.md"] := by
  refine ⟨fun st fs failReads avail oracle => ?_, fun _ _ _ _ => rfl,
    fun _ _ _ _ => rfl, fun _ _ _ _ _ => ⟨_, rfl⟩, by decide⟩
  cases fs with
  | none => exact ⟨st, rfl⟩
  | some entries => exact ⟨_, rfl⟩

/-! ## Claim C8: collection completes before resolution -/

/-- C8: `analyze` is literally two sequential passes — the state it returns
is the collection pass's `file_map` (unchanged by pass 2) together with a
graph obtained by folding `_parse_dependencies` over that same completed
`file_map`, every `_resolve_import_path` call consulting the completed map.
The closed conjunct exhibits the behavioral consequence: `a.ts`, walked
first, imports `./z`, which resolves to `z.ts` even though `z.ts` is
collected later in the walk. -/
theorem c8_two_pass (st : AnalyzerState) (entries : List FSTree) (failReads : List String)
    (avail : Bool) (oracle : String → String → List Capture) :
    (analyze st (some entries) failReads avail oracle =
      .ok (let acc := walkTop ignoreDirs acceptedExts failReads analyzerHandler entries
              ⟨st.fileMap, st.graph, []⟩
           { st with
              fileMap := acc.fileMap
              graph := acc.fileMap.foldl (fun g pc =>
                if endsWithAnyS pc.1 languageExts then
                  parseDependencies avail oracle st.tsconfigPaths st.tsconfigBaseUrl
                    acc.fileMap entries g pc.1 pc.2
                else g) acc.graph
              treeStructure := String.intercalate "\n" (acc.fileTree.take 500) })) ∧
    Edge.mk "a.ts" "z.ts" "imports" ∈ (analyzeRun [] "." c8Files [] true c8Oracle).graph.edges := by
  exact ⟨rfl, by decide⟩

/-! ## Association-list and walk lemmas -/

theorem mem_upsertA_self {β : Type} (l : List (String × β)) (k : String) (v : β) :
    (k, v) ∈ upsertA l k v := by
  unfold upsertA
  split_ifs with h
  · rw [List.any_eq_true] at h
    obtain ⟨p, hp, hpk⟩ := h
    rw [List.mem_map]
    exact ⟨p, hp, by simp [hpk]⟩
  · simp

theorem mem_upsertA_elim {β : Type} {l : List (String × β)} {k : String} {v : β} {p : String × β}
    (h : p ∈ upsertA l k v) : p = (k, v) ∨ (p ∈ l ∧ p.1 ≠ k) := by
  unfold upsertA at h
  split_ifs at h with hany
  · rw [List.mem_map] at h
    obtain ⟨q, hq, hf⟩ := h
    by_cases hqk : q.1 == k
    · left; rw [if_pos hqk] at hf; exact hf.symm
    · right; rw [if_neg hqk] at hf; subst hf; exact ⟨hq, by simpa using hqk⟩
  · rw [List.mem_append] at h
    rcases h with h | h
    · by_cases hpk : p.1 = k
      · exfalso
        apply hany
        rw [List.any_eq_true]
        exact ⟨p, h, by simp [hpk]⟩
      · right; exact ⟨h, hpk⟩
    · left; simpa using h

theorem mem_upsertA_of_ne {β : Type} {l : List (String × β)} {p : String × β} {k : String}
    (h : p ∈ l) (hne : p.1 ≠ k) (v : β) : p ∈ upsertA l k v := by
  unfold upsertA
  split_ifs with hany
  · rw [List.mem_map]
    exact ⟨p, h, by simp [hne]⟩
  · exact List.mem_append_left _ h

theorem keys_upsertA {β : Type} (l : List (String × β)) (k : String) (v : β) (k' : String) :
    k' ∈ (upsertA l k v).map (·.1) ↔ k' = k ∨ k' ∈ l.map (·.1) := by
  constructor
  · intro h
    rw [List.mem_map] at h
    obtain ⟨p, hp, hpk⟩ := h
    rcases mem_upsertA_elim hp with rfl | ⟨hl, _⟩
    · left; exact hpk.symm
    · right; rw [List.mem_map]; exact ⟨p, hl, hpk⟩
  · intro h
    rcases h with rfl | h
    · exact List.mem_map.2 ⟨(k', v), mem_upsertA_self l k' v, rfl⟩
    · rw [List.mem_map] at h
      obtain ⟨p, hp, hpk⟩ := h
      by_cases hpk' : p.1 = k
      · exact List.mem_map.2 ⟨(k, v), mem_upsertA_self l k v, by rw [← hpk, hpk']⟩
      · exact List.mem_map.2 ⟨p, mem_upsertA_of_ne hp hpk' v, hpk⟩

/-- Any property preserved by the per-file handler is preserved by the file
loop of one directory. -/
theorem filesPhase_preserves (exts failReads : List String)
    (handler : Pass1Acc → String → String → Pass1Acc) (P : Pass1Acc → Prop)
    (hH : ∀ acc rel content, P acc → P (handler acc rel content)) :
    ∀ (entries : List FSTree) (relDir : String) (acc : Pass1Acc), P acc →
      P (filesPhase exts failReads handler relDir acc entries) := by
  intro entries
  induction entries with
  | nil => intro relDir acc h; simpa [filesPhase] using h
  | cons t ts ih =>
    intro relDir acc h
    show P (filesPhase exts failReads handler relDir _ (t :: ts))
    rw [show filesPhase exts failReads handler relDir acc (t :: ts) =
        filesPhase exts failReads handler relDir
          ((fun a t => match t with
            | FSTree.file nm content =>
              if endsWithAnyS nm exts then
                let rel := joinRel relDir nm
                if failReads.contains rel then a else handler a rel content
              else a
            | FSTree.dir _ _ => a) acc t) ts from rfl]
    apply ih
    cases t with
    | file nm content =>
      dsimp only
      split_ifs with h1 h2
      · exact h
      · exact hH acc _ content h
      · exact h
    | dir d es => exact h

/-- Any property preserved by the per-file handler is preserved by the
whole pruned walk. -/
theorem walkDirs_preserves (ignore exts failReads : List String)
    (handler : Pass1Acc → String → String → Pass1Acc) (P : Pass1Acc → Prop)
    (hH : ∀ acc rel content, P acc → P (handler acc rel content)) :
    ∀ (fuel : Nat) (relDir : String) (acc : Pass1Acc) (entries : List FSTree), P acc →
      P (walkDirs ignore exts failReads handler fuel relDir acc entries) := by
  intro fuel
  induction fuel with
  | zero => intro _ acc _ h; simpa [walkDirs] using h
  | succ n ih =>
    intro relDir acc entries h
    match entries with
    | [] => simpa [walkDirs] using h
    | .file _ _ :: rest =>
      rw [walkDirs]
      exact ih _ _ _ h
    | .dir d es :: rest =>
      rw [walkDirs]
      apply ih
      split_ifs with hig
      · exact h
      · exact ih _ _ _ (filesPhase_preserves exts failReads handler P hH es _ acc h)

theorem walkTop_preserves (ignore exts failReads : List String)
    (handler : Pass1Acc → String → String → Pass1Acc) (P : Pass1Acc → Prop)
    (hH : ∀ acc rel content, P acc → P (handler acc rel content))
    (entries : List FSTree) (acc : Pass1Acc) (h : P acc) :
    P (walkTop ignore exts failReads handler entries acc) := by
  unfold walkTop
  exact walkDirs_preserves ignore exts failReads handler P hH _ _ _ _
    (filesPhase_preserves exts failReads handler P hH entries _ acc h)

/-- The collection handler of `analyzer.py` preserves `Pass1Inv`. -/
theorem analyzerHandler_inv (acc : Pass1Acc) (rel content : String)
    (h : Pass1Inv acc) : Pass1Inv (analyzerHandler acc rel content) := by
  obtain ⟨he, hn, hk⟩ := h
  refine ⟨he, ?_, ?_⟩
  · intro p hp
    rcases mem_upsertA_elim hp with rfl | ⟨hpl, hne⟩
    · exact ⟨⟨content.length, rfl⟩, by
        show rel ∈ (upsertA acc.fileMap rel content).map (·.1)
        exact (keys_upsertA acc.fileMap rel content rel).2 (Or.inl rfl)⟩
    · obtain ⟨⟨sz, hsz⟩, hmem⟩ := hn p hpl
      exact ⟨⟨sz, hsz⟩, (keys_upsertA acc.fileMap rel content p.1).2 (Or.inr hmem)⟩
  · intro k hk'
    rcases (keys_upsertA acc.fileMap rel content k).1 hk' with rfl | hold
    · exact ⟨content.length, mem_upsertA_self _ _ _⟩
    · by_cases hkr : k = rel
      · subst hkr; exact ⟨content.length, mem_upsertA_self _ _ _⟩
      · obtain ⟨sz, hsz⟩ := hk k hold
        exact ⟨sz, mem_upsertA_of_ne hsz hkr _⟩

/-- When tree-sitter is unavailable, the dependency pass is a no-op on the
graph. -/
theorem pass2_noop (oracle : String → String → List Capture)
    (tsPaths : List (String × List String)) (baseUrl : String)
    (fm : List (String × String)) (root : List FSTree) :
    ∀ (l : List (String × String)) (g : Graph),
      l.foldl (fun g pc =>
        if endsWithAnyS pc.1 languageExts then
          parseDependencies false oracle tsPaths baseUrl fm root g pc.1 pc.2
        else g) g = g := by
  intro l
  induction l with
  | nil => intro g; rfl
  | cons p ps ih =>
    intro g
    rw [List.foldl_cons]
    have hstep : (if endsWithAnyS p.1 languageExts then
        parseDependencies false oracle tsPaths baseUrl fm root g p.1 p.2 else g) = g := by
      split_ifs <;> rfl
    rw [hstep]
    exact ih g

/-! ## Claim C9: degraded mode -/

/-- C9: with the parsing subsystem unavailable, `analyze` still returns
normally, its `file_map` is exactly the one a fully-enabled run collects,
and the graph consists of file nodes only — no symbol nodes, no edges. -/
theorem c9_degraded_mode (tsPaths : List (String × List String)) (baseUrl : String)
    (entries : List FSTree) (failReads : List String)
    (oracle oracle' : String → String → List Capture) :
    analyze (mkState tsPaths baseUrl) (some entries) failReads false oracle
      = .ok (analyzeRun tsPaths baseUrl entries failReads false oracle) ∧
    (analyzeRun tsPaths baseUrl entries failReads false oracle).fileMap
      = (analyzeRun tsPaths baseUrl entries failReads true oracle').fileMap ∧
    (∀ p ∈ (analyzeRun tsPaths baseUrl entries failReads false oracle).graph.nodes,
      ∃ sz, p.2 = NodeData.fileNode sz) ∧
    (analyzeRun tsPaths baseUrl entries failReads false oracle).graph.edges = [] := by
  have hinv : Pass1Inv (walkTop ignoreDirs acceptedExts failReads analyzerHandler entries
      ⟨[], Graph.empty, []⟩) := by
    apply walkTop_preserves _ _ _ _ Pass1Inv analyzerHandler_inv
    exact ⟨rfl, by simp [Graph.empty], by simp [fmKeys]⟩
  have hg : (analyzeRun tsPaths baseUrl entries failReads false oracle).graph
      = (walkTop ignoreDirs acceptedExts failReads analyzerHandler entries
          ⟨[], Graph.empty, []⟩).graph := by
    exact pass2_noop oracle tsPaths baseUrl _ entries _ _
  refine ⟨rfl, rfl, ?_, ?_⟩
  · rw [hg]
    intro p hp
    exact ((hinv.2.1) p hp).1
  · rw [hg]
    exact hinv.1

/-! ## Claim C10: ignore-pruning -/

theorem Collectible.mono {l l' : List FSTree} {p : String} (hsub : ∀ t ∈ l, t ∈ l')
    (h : Collectible l p) : Collectible l' p := by
  cases h with
  | here hmem hext => exact .here (hsub _ hmem) hext
  | there hmem hig hc => exact .there (hsub _ hmem) hig hc

theorem append_mid_ne_empty (a b : String) : a ++ "/" ++ b ≠ "" := by
  intro hcon
  have hlen := congrArg String.length hcon
  rw [String.length_append, String.length_append] at hlen
  have hone : ("/" : String).length = 1 := rfl
  have hzero : ("" : String).length = 0 := rfl
  omega

theorem joinRel_glue {relDir d nm : String} (hd : d ≠ "") :
    joinRel (joinRel relDir d) nm = joinRel relDir (d ++ "/" ++ nm) := by
  by_cases h : relDir = ""
  · subst h
    simp [joinRel, hd, String.append_assoc]
  · have hne : relDir ++ ("/" ++ d) ≠ "" := by
      rw [← String.append_assoc]
      exact append_mid_ne_empty relDir d
    simp [joinRel, h, hne, String.append_assoc]

/-- Every key added by the file loop of one directory is a file of that
directory, accepted by extension, placed at `joinRel relDir name`. -/
theorem filesPhase_keys (failReads : List String) :
    ∀ (entries : List FSTree) (relDir : String) (acc : Pass1Acc) (k : String),
      k ∈ fmKeys (filesPhase acceptedExts failReads analyzerHandler relDir acc entries).fileMap →
      k ∈ fmKeys acc.fileMap ∨
        ∃ nm content, FSTree.file nm content ∈ entries ∧
          endsWithAnyS nm acceptedExts = true ∧ k = joinRel relDir nm := by
  intro entries
  induction entries with
  | nil => intro relDir acc k hk; exact Or.inl (by simpa [filesPhase] using hk)
  | cons t ts ih =>
    intro relDir acc k hk
    rw [show filesPhase acceptedExts failReads analyzerHandler relDir acc (t :: ts) =
        filesPhase acceptedExts failReads analyzerHandler relDir
          ((fun a t => match t with
            | FSTree.file nm content =>
              if endsWithAnyS nm acceptedExts then
                let rel := joinRel relDir nm
                if failReads.contains rel then a else analyzerHandler a rel content
              else a
            | FSTree.dir _ _ => a) acc t) ts from rfl] at hk
    rcases ih relDir _ k hk with h | ⟨nm, c, hm, hex, hkk⟩
    · cases t with
      | file nm content =>
        dsimp only at h
        split_ifs at h with h1 h2
        · exact Or.inl h
        · rcases (keys_upsertA acc.fileMap (joinRel relDir nm) content k).1 h with rfl | hold
          · exact Or.inr ⟨nm, content, List.mem_cons_self _ _, h1, rfl⟩
          · exact Or.inl hold
        · exact Or.inl h
      | dir d es => exact Or.inl h
    · exact Or.inr ⟨nm, c, List.mem_cons_of_mem _ hm, hex, hkk⟩

/-- Every key added by the pruned walk corresponds to a `Collectible` path:
it is reached through non-ignored directories only. -/
theorem walkDirs_keys (failReads : List String) :
    ∀ (fuel : Nat) (relDir : String) (acc : Pass1Acc) (entries : List FSTree),
      FSTree.namesOkL entries = true →
      ∀ k, k ∈ fmKeys (walkDirs ignoreDirs acceptedExts failReads analyzerHandler
          fuel relDir acc entries).fileMap →
        k ∈ fmKeys acc.fileMap ∨ ∃ p, Collectible entries p ∧ k = joinRel relDir p := by
  intro fuel
  induction fuel with
  | zero => intro _ acc _ _ k hk; exact Or.inl (by simpa [walkDirs] using hk)
  | succ n ih =>
    intro relDir acc entries hnames k hk
    match entries, hnames with
    | [], _ => exact Or.inl (by simpa [walkDirs] using hk)
    | .file nm c :: rest, hnames =>
      rw [walkDirs] at hk
      have hrest : FSTree.namesOkL rest = true := by
        have hn := hnames
        rw [FSTree.namesOkL, Bool.and_eq_true] at hn
        exact hn.2
      rcases ih relDir acc rest hrest k hk with h | ⟨p, hc, hkp⟩
      · exact Or.inl h
      · exact Or.inr ⟨p, hc.mono (fun t ht => List.mem_cons_of_mem _ ht), hkp⟩
    | .dir d es :: rest, hnames =>
      rw [walkDirs] at hk
      have hok : FSTree.namesOk (FSTree.dir d es) = true ∧ FSTree.namesOkL rest = true := by
        have hn := hnames
        rw [FSTree.namesOkL, Bool.and_eq_true] at hn
        exact hn
      have hde : ((d != "") && FSTree.namesOkL es) = true := by
        have hn := hok.1
        rw [FSTree.namesOk] at hn
        exact hn
      rw [Bool.and_eq_true] at hde
      have hd : d ≠ "" := by simpa using hde.1
      have hes : FSTree.namesOkL es = true := hde.2
      rcases ih relDir _ rest hok.2 k hk with h | ⟨p, hc, hkp⟩
      · -- k comes from the accumulator after the (possibly pruned) descent
        split_ifs at h with hig
        · exact Or.inl h
        · rcases ih (joinRel relDir d) _ es hes k h with h2 | ⟨p, hc, hkp⟩
          · rcases filesPhase_keys failReads es (joinRel relDir d) acc k h2 with h3 | ⟨nm, c, hm, hex, hkk⟩
            · exact Or.inl h3
            · refine Or.inr ⟨d ++ "/" ++ nm, ?_, ?_⟩
              · exact .there (List.mem_cons_self _ _) (by simpa using hig) (.here hm hex)
              · rw [hkk, joinRel_glue hd]
          · refine Or.inr ⟨d ++ "/" ++ p, ?_, ?_⟩
            · exact .there (List.mem_cons_self _ _) (by simpa using hig) hc
            · rw [hkp, joinRel_glue hd]
      · exact Or.inr ⟨p, hc.mono (fun t ht => List.mem_cons_of_mem _ ht), hkp⟩

/-- C10: for any repository (with OS-legal directory names), every path in
`file_map` after `analyze` is reached exclusively through directories whose
names are outside the ignore set `{.git, node_modules, dist, build,
__pycache__, .next}` — no file beneath an ignored directory, at any depth,
is collected. -/
theorem c10_ignore_pruning (tsPaths : List (String × List String)) (baseUrl : String)
    (entries : List FSTree) (failReads : List String) (avail : Bool)
    (oracle : String → String → List Capture) (k : String)
    (hnames : FSTree.namesOkL entries = true)
    (hk : k ∈ fmKeys (analyzeRun tsPaths baseUrl entries failReads avail oracle).fileMap) :
    Collectible entries k := by
  have hk' : k ∈ fmKeys (walkTop ignoreDirs acceptedExts failReads analyzerHandler entries
      ⟨[], Graph.empty, []⟩).fileMap := hk
  unfold walkTop at hk'
  rcases walkDirs_keys failReads _ "" _ entries hnames k hk' with h | ⟨p, hc, hkp⟩
  · rcases filesPhase_keys failReads entries "" ⟨[], Graph.empty, []⟩ k h with h0 | ⟨nm, c, hm, hex, hkk⟩
    · simp [fmKeys] at h0
    · rw [hkk]
      exact .here hm hex
  · rw [hkp]
    exact hc

/-- Witness for `c10_ignore_pruning`: `src/a.ts` is collected from
`c10Entries` (while nothing beneath `node_modules` is). -/
theorem c10_ignore_pruning_witness :
    FSTree.namesOkL c10Entries = true ∧
    "src/a.ts" ∈ fmKeys (analyzeRun [] "." c10Entries [] true oracle0).fileMap ∧
    Collectible c10Entries "src/a.ts" :=
  ⟨by decide, by decide,
    c10_ignore_pruning [] "." c10Entries [] true oracle0 "src/a.ts" (by decide) (by decide)⟩

/-! ## Claim C2: the context budget -/

theorem addToContext_len (ctx h c : String)
    (hb : ctx.length ≤ MAX_CHARS + truncationMarker.length - 1) :
    ((addToContext MAX_CHARS ctx h c).2).length ≤ MAX_CHARS + truncationMarker.length - 1 := by
  unfold addToContext
  dsimp only
  split_ifs with h1 h2
  · exact hb
  · rw [String.length_append]
    have hlt : ctx.length < MAX_CHARS := Nat.lt_of_not_le h1
    have hm : truncationMarker.length = 44 := rfl
    have hx : MAX_CHARS = 35000 := rfl
    omega
  · rw [String.length_append]
    have hfit := Nat.le_of_not_lt h2
    have hm : truncationMarker.length = 44 := rfl
    have hx : MAX_CHARS = 35000 := rfl
    omega

theorem componentsLoop_len : ∀ (l : List (String × String)) (ctx : String),
    ctx.length ≤ MAX_CHARS + truncationMarker.length - 1 →
    (componentsLoop l ctx).length ≤ MAX_CHARS + truncationMarker.length - 1 := by
  intro l
  induction l with
  | nil => intro ctx h; simpa [componentsLoop] using h
  | cons p ps ih =>
    intro ctx h
    obtain ⟨path, content⟩ := p
    rw [componentsLoop]
    dsimp only
    split_ifs <;> first
      | exact h
      | exact ih _ h
      | exact ih _ (addToContext_len _ _ _ h)
      | exact addToContext_len _ _ _ h

theorem erdLoop_len (fm : List (String × String)) : ∀ (l : List String) (ctx : String),
    ctx.length ≤ MAX_CHARS + truncationMarker.length - 1 →
    (erdLoop fm l ctx).length ≤ MAX_CHARS + truncationMarker.length - 1 := by
  intro l
  induction l with
  | nil => intro ctx h; simpa [erdLoop] using h
  | cons f fs ih =>
    intro ctx h
    rw [erdLoop]
    dsimp only
    split_ifs <;> first
      | exact ih _ h
      | exact ih _ (addToContext_len _ _ _ h)
      | exact addToContext_len _ _ _ h

theorem setupLoop1_len (fm : List (String × String)) : ∀ (l : List String) (ctx : String),
    ctx.length ≤ MAX_CHARS + truncationMarker.length - 1 →
    (setupLoop1 fm l ctx).length ≤ MAX_CHARS + truncationMarker.length - 1 := by
  intro l
  induction l with
  | nil => intro ctx h; simpa [setupLoop1] using h
  | cons f fs ih =>
    intro ctx h
    rw [setupLoop1]
    dsimp only
    split_ifs <;> first
      | exact ih _ h
      | exact ih _ (addToContext_len _ _ _ h)
      | exact addToContext_len _ _ _ h

theorem setupLoop2_len : ∀ (l : List (String × String)) (ctx : String),
    ctx.length ≤ MAX_CHARS + truncationMarker.length - 1 →
    (setupLoop2 l ctx).length ≤ MAX_CHARS + truncationMarker.length - 1 := by
  intro l
  induction l with
  | nil => intro ctx h; simpa [setupLoop2] using h
  | cons p ps ih =>
    intro ctx h
    obtain ⟨path, content⟩ := p
    rw [setupLoop2]
    dsimp only
    split_ifs <;> first
      | exact ih _ h
      | exact ih _ (addToContext_len _ _ _ h)
      | exact addToContext_len _ _ _ h

theorem sequenceLoop_len : ∀ (l : List (String × String)) (ctx : String),
    ctx.length ≤ MAX_CHARS + truncationMarker.length - 1 →
    (sequenceLoop l ctx).length ≤ MAX_CHARS + truncationMarker.length - 1 := by
  intro l
  induction l with
  | nil => intro ctx h; simpa [sequenceLoop] using h
  | cons p ps ih =>
    intro ctx h
    obtain ⟨path, content⟩ := p
    rw [sequenceLoop]
    dsimp only
    split_ifs <;> first
      | exact ih _ h
      | exact ih _ (addToContext_len _ _ _ h)
      | exact addToContext_len _ _ _ h

/-- C2 (counterexample): on the `arch` branch the accumulator is seeded with
`tree_structure` followed by a newline with no budget check at all, so the
returned context exceeds the 35 000-character ceiling whenever the tree
listing alone does. -/
theorem c2_counterexample :
    getContext? stBig "arch" = some ((⟨List.replicate 35001 'a'⟩ : String) ++ "\n") ∧
    MAX_CHARS < ((⟨List.replicate 35001 'a'⟩ : String) ++ "\n").length := by
  refine ⟨rfl, ?_⟩
  rw [String.length_append]
  have h1 : (⟨List.replicate 35001 'a'⟩ : String).length = 35001 := by
    show (List.replicate 35001 'a').length = 35001
    rw [List.length_replicate]
  have h2 : ("\n" : String).length = 1 := rfl
  have h3 : MAX_CHARS = 35000 := rfl
  omega

/-- C2 (amended): on every branch driven purely by `add_to_context`
(everything except `arch`, whose seed is unchecked, and `api_ref`, which is
outside this model), the returned context never exceeds the ceiling plus
the unchecked truncation marker: `35 000 + 44 - 1` characters.  The ceiling
itself can be exceeded by up to `len(marker) - 1` characters because the
marker is appended without a budget check. -/
theorem c2_context_bound (st : AnalyzerState) (mt : String) (ctx : String)
    (h : getContext? st mt = some ctx) (harch : mt ≠ "arch") :
    ctx.length ≤ MAX_CHARS + truncationMarker.length - 1 := by
  have hempty : ("" : String).length ≤ MAX_CHARS + truncationMarker.length - 1 := by
    have hm : truncationMarker.length = 44 := rfl
    have hx : MAX_CHARS = 35000 := rfl
    simp [hm, hx]
  unfold getContext? at h
  by_cases h1 : mt = "api_ref"
  · rw [if_pos h1] at h
    exact absurd h (by simp)
  · rw [if_neg h1] at h
    have hctx := Option.some.inj h
    subst hctx
    by_cases h2 : mt = "components"
    · rw [if_pos h2]
      exact componentsLoop_len _ _ hempty
    · rw [if_neg h2]
      by_cases h3 : mt = "erd"
      · rw [if_pos h3]
        dsimp only
        exact erdLoop_len _ _ _ hempty
      · rw [if_neg h3]
        by_cases h4 : mt = "root"
        · rw [if_pos h4]
          dsimp only
          exact addToContext_len _ _ _ (addToContext_len _ _ _ hempty)
        · rw [if_neg h4]
          by_cases h5 : mt = "setup"
          · rw [if_pos h5]
            exact setupLoop2_len _ _ (setupLoop1_len _ _ _ hempty)
          · rw [if_neg h5]
            by_cases h6 : mt = "sequence"
            · rw [if_pos h6]
              exact sequenceLoop_len _ _ hempty
            · rw [if_neg h6]
              rw [if_neg harch]
              exact hempty

/-- Witness for `c2_context_bound` on the `root` branch of a small session. -/
theorem c2_context_bound_witness :
    ("root" : String) ≠ "arch" ∧
    ∃ ctx, getContext? stRootW "root" = some ctx ∧
      ctx.length ≤ MAX_CHARS + truncationMarker.length - 1 := by
  refine ⟨by decide, _, rfl, c2_context_bound stRootW "root" _ rfl (by decide)⟩

/-! ## Claim C7: single-file re-analysis -/

theorem nodeKeys_addNode {g : Graph} {k' : String} (h : k' ∈ nodeKeys g) (k : String) (d : NodeData) :
    k' ∈ nodeKeys (addNode g k d) := by
  show k' ∈ (upsertA g.nodes k d).map (·.1)
  exact (keys_upsertA g.nodes k d k').2 (Or.inr h)

theorem nodeKeys_ensureNode {g : Graph} {k' : String} (h : k' ∈ nodeKeys g) (k : String) :
    k' ∈ nodeKeys (ensureNode g k) := by
  unfold ensureNode
  split_ifs
  · exact h
  · show k' ∈ (g.nodes ++ [(k, NodeData.bare)]).map (·.1)
    rw [List.map_append]
    exact List.mem_append_left _ h

theorem edgeKeys_ensureNode {g : Graph} {e : String × String} (h : e ∈ edgeKeys g) (k : String) :
    e ∈ edgeKeys (ensureNode g k) := by
  unfold ensureNode
  split_ifs <;> exact h

theorem nodeKeys_addEdge {g : Graph} {k' : String} (h : k' ∈ nodeKeys g) (s t r : String) :
    k' ∈ nodeKeys (addEdge g s t r) := by
  unfold addEdge
  dsimp only
  split_ifs <;> exact nodeKeys_ensureNode (nodeKeys_ensureNode h s) t

theorem edgeKeys_addEdge {g : Graph} {e : String × String} (h : e ∈ edgeKeys g) (s t r : String) :
    e ∈ edgeKeys (addEdge g s t r) := by
  unfold addEdge
  dsimp only
  have h1 : e ∈ edgeKeys (ensureNode (ensureNode g s) t) :=
    edgeKeys_ensureNode (edgeKeys_ensureNode h s) t
  split_ifs with hex
  · show e ∈ (List.map (fun ed => if ed.src == s && ed.tgt == t then { ed with relation := r } else ed)
      (ensureNode (ensureNode g s) t).edges).map (fun ed => (ed.src, ed.tgt))
    unfold edgeKeys at h1
    rw [List.mem_map] at h1
    obtain ⟨ed, hed, hpr⟩ := h1
    rw [List.map_map, List.mem_map]
    refine ⟨ed, hed, ?_⟩
    by_cases hm : ed.src == s && ed.tgt == t
    · rw [Function.comp_apply, if_pos hm]
      rw [Bool.and_eq_true, beq_iff_eq, beq_iff_eq] at hm
      rw [← hpr, hm.1, hm.2]
    · rw [Function.comp_apply, if_neg hm]
      exact hpr
  · show e ∈ ((ensureNode (ensureNode g s) t).edges ++ [Edge.mk s t r]).map (fun ed => (ed.src, ed.tgt))
    rw [List.map_append]
    exact List.mem_append_left _ h1

theorem nodeKeys_processCapture {g : Graph} {k' : String} (h : k' ∈ nodeKeys g)
    (tsPaths : List (String × List String)) (baseUrl : String)
    (fm : List (String × String)) (root : List FSTree)
    (relPath content : String) (cap : Capture) :
    k' ∈ nodeKeys (processCapture tsPaths baseUrl fm root relPath content g cap) := by
  unfold processCapture
  dsimp only
  split_ifs
  · cases resolveImportPath tsPaths baseUrl fm root relPath (captureText content cap) with
    | none => exact h
    | some resolved => exact nodeKeys_addEdge h _ _ _
  · exact nodeKeys_addEdge (nodeKeys_addNode h _ _) _ _ _
  · exact h

theorem edgeKeys_processCapture {g : Graph} {e : String × String} (h : e ∈ edgeKeys g)
    (tsPaths : List (String × List String)) (baseUrl : String)
    (fm : List (String × String)) (root : List FSTree)
    (relPath content : String) (cap : Capture) :
    e ∈ edgeKeys (processCapture tsPaths baseUrl fm root relPath content g cap) := by
  unfold processCapture
  dsimp only
  split_ifs
  · cases resolveImportPath tsPaths baseUrl fm root relPath (captureText content cap) with
    | none => exact h
    | some resolved => exact edgeKeys_addEdge h _ _ _
  · exact edgeKeys_addEdge (show e ∈ edgeKeys (addNode g _ _) from h) _ _ _
  · exact h

/-- Graph growth through a fold: key presence of nodes and edges is
preserved by any fold whose steps preserve it. -/
theorem keys_foldl {α : Type} (step : Graph → α → Graph)
    (hstep : ∀ g x, (∀ k ∈ nodeKeys g, k ∈ nodeKeys (step g x)) ∧
      (∀ e ∈ edgeKeys g, e ∈ edgeKeys (step g x))) :
    ∀ (l : List α) (g : Graph),
      (∀ k ∈ nodeKeys g, k ∈ nodeKeys (l.foldl step g)) ∧
      (∀ e ∈ edgeKeys g, e ∈ edgeKeys (l.foldl step g)) := by
  intro l
  induction l with
  | nil => intro g; exact ⟨fun _ h => h, fun _ h => h⟩
  | cons x xs ih =>
    intro g
    rw [List.foldl_cons]
    exact ⟨fun k hk => (ih (step g x)).1 k ((hstep g x).1 k hk),
           fun e he => (ih (step g x)).2 e ((hstep g x).2 e he)⟩

theorem keys_parseDependencies {g : Graph} (avail : Bool)
    (oracle : String → String → List Capture)
    (tsPaths : List (String × List String)) (baseUrl : String)
    (fm : List (String × String)) (root : List FSTree) (relPath content : String) :
    (∀ k ∈ nodeKeys g, k ∈ nodeKeys (parseDependencies avail oracle tsPaths baseUrl fm root g relPath content)) ∧
    (∀ e ∈ edgeKeys g, e ∈ edgeKeys (parseDependencies avail oracle tsPaths baseUrl fm root g relPath content)) := by
  unfold parseDependencies
  exact keys_foldl _ (fun g cap =>
    ⟨fun k hk => nodeKeys_processCapture hk tsPaths baseUrl fm root relPath content cap,
     fun e he => edgeKeys_processCapture he tsPaths baseUrl fm root relPath content cap⟩) _ g

/-- `analyze` (with an existing root) only upserts: every node key and every
edge (source, target) pair of the previous session graph is still present
afterwards. -/
theorem analyze_upserts (st : AnalyzerState) (entries : List FSTree)
    (failReads : List String) (avail : Bool)
    (oracle : String → String → List Capture) (st' : AnalyzerState)
    (h : analyze st (some entries) failReads avail oracle = .ok st') :
    (∀ k ∈ nodeKeys st.graph, k ∈ nodeKeys st'.graph) ∧
    (∀ e ∈ edgeKeys st.graph, e ∈ edgeKeys st'.graph) := by
  have hst' : st' = { st with
      fileMap := (walkTop ignoreDirs acceptedExts failReads analyzerHandler entries
        ⟨st.fileMap, st.graph, []⟩).fileMap
      graph := (walkTop ignoreDirs acceptedExts failReads analyzerHandler entries
        ⟨st.fileMap, st.graph, []⟩).fileMap.foldl (fun g pc =>
          if endsWithAnyS pc.1 languageExts then
            parseDependencies avail oracle st.tsconfigPaths st.tsconfigBaseUrl
              (walkTop ignoreDirs acceptedExts failReads analyzerHandler entries
                ⟨st.fileMap, st.graph, []⟩).fileMap entries g pc.1 pc.2
          else g)
        (walkTop ignoreDirs acceptedExts failReads analyzerHandler entries
          ⟨st.fileMap, st.graph, []⟩).graph
      treeStructure := String.intercalate "\n"
        ((walkTop ignoreDirs acceptedExts failReads analyzerHandler entries
          ⟨st.fileMap, st.graph, []⟩).fileTree.take 500) } := by
    have := h.symm
    rw [show analyze st (some entries) failReads avail oracle = .ok _ from rfl] at this
    exact Except.ok.inj this.symm |>.symm
  subst hst'
  have hwalk : ∀ acc : Pass1Acc,
      (∀ k ∈ nodeKeys acc.graph, k ∈ nodeKeys (walkTop ignoreDirs acceptedExts failReads analyzerHandler entries acc).graph) ∧
      (∀ e ∈ edgeKeys acc.graph, e ∈ edgeKeys (walkTop ignoreDirs acceptedExts failReads analyzerHandler entries acc).graph) := by
    intro acc
    have := walkTop_preserves ignoreDirs acceptedExts failReads analyzerHandler
      (fun a => (∀ k ∈ nodeKeys acc.graph, k ∈ nodeKeys a.graph) ∧
        (∀ e ∈ edgeKeys acc.graph, e ∈ edgeKeys a.graph))
      (fun a rel content ha =>
        ⟨fun k hk => nodeKeys_addNode (ha.1 k hk) rel (.fileNode content.length),
         fun e he => ha.2 e he⟩)
      entries acc ⟨fun _ hk => hk, fun _ he => he⟩
    exact this
  have hpass2 := keys_foldl (fun g pc =>
      if endsWithAnyS pc.1 languageExts then
        parseDependencies avail oracle st.tsconfigPaths st.tsconfigBaseUrl
          (walkTop ignoreDirs acceptedExts failReads analyzerHandler entries
            ⟨st.fileMap, st.graph, []⟩).fileMap entries g pc.1 pc.2
      else g)
    (fun g pc => by
      dsimp only
      split_ifs
      · exact keys_parseDependencies avail oracle st.tsconfigPaths st.tsconfigBaseUrl _ entries pc.1 pc.2
      · exact ⟨fun _ hk => hk, fun _ he => he⟩)
    (walkTop ignoreDirs acceptedExts failReads analyzerHandler entries
      ⟨st.fileMap, st.graph, []⟩).fileMap
    (walkTop ignoreDirs acceptedExts failReads analyzerHandler entries
      ⟨st.fileMap, st.graph, []⟩).graph
  refine ⟨fun k hk => ?_, fun e he => ?_⟩
  · exact hpass2.1 k ((hwalk ⟨st.fileMap, st.graph, []⟩).1 k hk)
  · exact hpass2.2 e ((hwalk ⟨st.fileMap, st.graph, []⟩).2 e he)

/-- C7 (counterexample): the endpoint's re-analysis of `a.ts` alone also
re-parses `b.ts` — a node belonging to the untouched-by-request file
`b.ts` (`b.ts::B2`) appears in the graph even though only `a.ts` was
submitted for re-analysis. -/
theorem c7_counterexample :
    reanalyzeFile c7St1 (some c7Fs2) [] true c7Oracle "a.ts" = .ok c7St2 ∧
    (nodeKeys c7St2.graph).contains "b.ts::B2" = true ∧
    (nodeKeys c7St1.graph).contains "b.ts::B2" = false := by
  exact ⟨rfl, by decide, by decide⟩

/-- C7 (amended): `reanalyze_file_endpoint` updates the file's `file_map`
entry and then performs a FULL re-analysis — `analyze()` over the whole
tree on top of the existing session — rather than re-parsing only the
requested file; the full pass only upserts, so every node key and edge pair
of the previous graph survives (nothing is deleted), but nodes and edges of
other files are re-parsed and may change. -/
theorem c7_full_reanalysis (st : AnalyzerState) (fs : Option (List FSTree))
    (failReads : List String) (avail : Bool)
    (oracle : String → String → List Capture) (filePath : String) (st' : AnalyzerState)
    (h : reanalyzeFile st fs failReads avail oracle filePath = .ok st') :
    (∃ entries content, fs = some entries ∧ readFile? entries filePath = some content ∧
      analyze ({ st with fileMap := upsertA st.fileMap filePath content })
        (some entries) failReads avail oracle = .ok st') ∧
    (∀ k ∈ nodeKeys st.graph, k ∈ nodeKeys st'.graph) ∧
    (∀ e ∈ edgeKeys st.graph, e ∈ edgeKeys st'.graph) := by
  cases fs with
  | none => exact absurd h (by simp [reanalyzeFile])
  | some entries =>
    unfold reanalyzeFile at h
    dsimp only at h
    split_ifs at h with hex
    · cases hrd : readFile? entries filePath with
      | none =>
        rw [hrd] at h
        exact absurd h (by simp)
      | some content =>
        rw [hrd] at h
        have hups := analyze_upserts { st with fileMap := upsertA st.fileMap filePath content }
          entries failReads avail oracle st' h
        exact ⟨⟨entries, content, rfl, hrd, h⟩, hups.1, hups.2⟩

/-- Witness for `c7_full_reanalysis` on the concrete two-file scenario. -/
theorem c7_full_reanalysis_witness :
    (∃ entries content, (some c7Fs2) = some entries ∧ readFile? entries "a.ts" = some content ∧
      analyze ({ c7St1 with fileMap := upsertA c7St1.fileMap "a.ts" content })
        (some entries) [] true c7Oracle = .ok c7St2) ∧
    (∀ k ∈ nodeKeys c7St1.graph, k ∈ nodeKeys c7St2.graph) ∧
    (∀ e ∈ edgeKeys c7St1.graph, e ∈ edgeKeys c7St2.graph) := by
  exact c7_full_reanalysis c7St1 (some c7Fs2) [] true c7Oracle "a.ts" c7St2 rfl

/-! ## Claim C6: the defines-edge invariant -/

theorem stringExt {a b : String} (h : a.toList = b.toList) : a = b := by
  cases a
  cases b
  exact congrArg String.mk (by simpa [String.toList] using h)

theorem toList_append3 (a m : String) :
    (a ++ "::" ++ m).toList = a.toList ++ ':' :: ':' :: m.toList := by
  have h1 : (a ++ "::" ++ m).toList = a.toList ++ ("::" : String).toList ++ m.toList := by
    simp [String.toList, String.data_append]
  rw [h1]
  have h2 : ("::" : String).toList = [':', ':'] := rfl
  rw [h2]
  simp

theorem splitAtMarker {xs u : List Char} :
    ∀ {ys v : List Char}, ':' ∉ xs → ':' ∉ ys →
      xs ++ ':' :: u = ys ++ ':' :: v → xs = ys ∧ u = v := by
  induction xs with
  | nil =>
    intro ys v _ hy h
    cases ys with
    | nil => simpa using h
    | cons y ys' =>
      exfalso
      rw [List.nil_append, List.cons_append, List.cons.injEq] at h
      exact hy (h.1 ▸ List.mem_cons_self _ _)
  | cons x xs' ih =>
    intro ys v hx hy h
    cases ys with
    | nil =>
      exfalso
      rw [List.nil_append, List.cons_append, List.cons.injEq] at h
      exact hx (h.1 ▸ List.mem_cons_self _ _)
    | cons y ys' =>
      rw [List.cons_append, List.cons_append, List.cons.injEq] at h
      have hx' : ':' ∉ xs' := fun hc => hx (List.mem_cons_of_mem _ hc)
      have hy' : ':' ∉ ys' := fun hc => hy (List.mem_cons_of_mem _ hc)
      obtain ⟨h1, h2⟩ := ih hx' hy' h.2
      exact ⟨by rw [h.1, h1], h2⟩

theorem entityId_inj {a m b n : String} (hm : ':' ∉ m.toList) (hn : ':' ∉ n.toList)
    (h : a ++ "::" ++ m = b ++ "::" ++ n) : a = b ∧ m = n := by
  have hdata : a.toList ++ ':' :: ':' :: m.toList = b.toList ++ ':' :: ':' :: n.toList := by
    rw [← toList_append3, ← toList_append3, h]
  have hrev : m.toList.reverse ++ ':' :: (':' :: a.toList.reverse)
      = n.toList.reverse ++ ':' :: (':' :: b.toList.reverse) := by
    have := congrArg List.reverse hdata
    simpa [List.reverse_append] using this
  have hmrev : ':' ∉ m.toList.reverse := by simpa using hm
  have hnrev : ':' ∉ n.toList.reverse := by simpa using hn
  obtain ⟨h1, h2⟩ := splitAtMarker hmrev hnrev hrev
  rw [List.cons.injEq] at h2
  refine ⟨stringExt ?_, stringExt ?_⟩
  · have := h2.2
    exact List.reverse_injective this
  · exact List.reverse_injective h1

theorem infixOf_marker (m : List Char) : ∀ a : List Char, infixOf [':', ':'] (a ++ ':' :: ':' :: m) = true := by
  intro a
  induction a with
  | nil =>
    show infixOf [':', ':'] (':' :: ':' :: m) = true
    rw [infixOf, Bool.or_eq_true]
    left
    simp [listStarts, List.isPrefixOf]
  | cons c cs ih =>
    rw [List.cons_append, infixOf]
    rw [Bool.or_eq_true]
    exact Or.inr ih

theorem containsS_marker (a m : String) : containsS (a ++ "::" ++ m) "::" = true := by
  unfold containsS
  rw [show ("::" : String).toList = [':', ':'] from rfl, toList_append3]
  exact infixOf_marker m.toList a.toList

theorem edges_ensureNode (g : Graph) (k : String) : (ensureNode g k).edges = g.edges := by
  unfold ensureNode
  split_ifs <;> rfl

theorem mem_nodes_ensureNode {g : Graph} {p : String × NodeData} (h : p ∈ g.nodes) (k : String) :
    p ∈ (ensureNode g k).nodes := by
  unfold ensureNode
  split_ifs
  · exact h
  · exact List.mem_append_left _ h

theorem mem_nodes_ensureNode_elim {g : Graph} {p : String × NodeData} {k : String}
    (h : p ∈ (ensureNode g k).nodes) : p ∈ g.nodes ∨ p = (k, NodeData.bare) := by
  unfold ensureNode at h
  split_ifs at h
  · exact Or.inl h
  · rcases List.mem_append.1 h with h | h
    · exact Or.inl h
    · exact Or.inr (by simpa using h)

theorem ensureNode_present {g : Graph} {k : String} (h : ∃ d, (k, d) ∈ g.nodes) :
    ensureNode g k = g := by
  unfold ensureNode
  rw [if_pos]
  rw [List.any_eq_true]
  obtain ⟨d, hd⟩ := h
  exact ⟨(k, d), hd, by simp⟩

theorem mapSelf {α : Type} {f : α → α} : ∀ {l : List α}, (∀ x ∈ l, f x = x) → l.map f = l := by
  intro l
  induction l with
  | nil => intro _; rfl
  | cons x xs ih =>
    intro h
    rw [List.map_cons, h x (List.mem_cons_self _ _), ih (fun y hy => h y (List.mem_cons_of_mem _ hy))]

theorem definesInto_edges (g : Graph) (n : String) :
    definesInto g n = g.edges.filter (fun e => e.relation == "defines" && e.tgt == n) := rfl

theorem NodeOk_congr {fm : List (String × String)} {g g' : Graph} {p : String × NodeData}
    (hedges : g'.edges = g.edges) (h : NodeOk fm g p) : NodeOk fm g' p := by
  obtain ⟨k, d⟩ := p
  have hdi : ∀ n, definesInto g' n = definesInto g n := by
    intro n
    rw [definesInto_edges, definesInto_edges, hedges]
  cases d with
  | fileNode sz => exact h
  | bare => exact h
  | entityLite nm => exact h
  | entityNode nm kd fp sn ln => exact ⟨h.1, h.2.1, h.2.2.1, (hdi _).trans h.2.2.2⟩

theorem EdgeOk_mono {g g' : Graph} {e : Edge}
    (hmono : ∀ q ∈ g.nodes, q ∈ g'.nodes) (h : EdgeOk g e) : EdgeOk g' e := by
  rcases h with ⟨hd, nm, kd, sn, ln, hnode, htgt, hnm⟩ | hi
  · exact Or.inl ⟨hd, nm, kd, sn, ln, hmono _ hnode, htgt, hnm⟩
  · exact Or.inr hi

/-- Adding an `imports` edge from a collected file to a `::`-free target
preserves the graph invariant. -/
theorem addEdge_imports_good {fm : List (String × String)} {g : Graph} {rel r : String}
    (hrel : rel ∈ fmKeys fm) (hr : containsS r "::" = false) (hG : GoodGraph fm g) :
    GoodGraph fm (addEdge g rel r "imports") := by
  obtain ⟨hN, hE, hF⟩ := hG
  have hrelnode : ∃ d, (rel, d) ∈ g.nodes := by
    obtain ⟨sz, hsz⟩ := hF rel hrel
    exact ⟨_, hsz⟩
  unfold addEdge
  rw [ensureNode_present hrelnode]
  have hedges1 : (ensureNode g r).edges = g.edges := edges_ensureNode g r
  have hnodes1 : ∀ q ∈ g.nodes, q ∈ (ensureNode g r).nodes := fun q hq => mem_nodes_ensureNode hq r
  have hnodes1' : ∀ p ∈ (ensureNode g r).nodes, p ∈ g.nodes ∨ p = (r, NodeData.bare) :=
    fun p hp => mem_nodes_ensureNode_elim hp
  dsimp only
  rw [hedges1]
  split_ifs with hex
  · -- an edge (rel, r) already exists; since its target has no `::` marker it
    -- is an `imports` edge, and the update map is the identity
    have hid : g.edges.map (fun e =>
        if e.src == rel && e.tgt == r then { e with relation := "imports" } else e) = g.edges := by
      apply mapSelf
      intro e he
      by_cases hk : (e.src == rel && e.tgt == r) = true
      · rw [if_pos hk]
        rw [Bool.and_eq_true, beq_iff_eq, beq_iff_eq] at hk
        rcases hE e he with ⟨_, nm, kd, sn, ln, _, htgt, _⟩ | ⟨hi, _⟩
        · exfalso
          have hc : containsS e.tgt "::" = true := htgt ▸ containsS_marker _ _
          rw [hk.2, hr] at hc
          exact Bool.false_ne_true hc
        · cases e with
          | mk s t rl =>
            have hi' : rl = "imports" := hi
            rw [hi']
      · rw [if_neg hk]
    refine ⟨?_, ?_, ?_⟩
    · intro p hp
      rcases hnodes1' p hp with hp' | rfl
      · exact NodeOk_congr (g := g) hid (hN p hp')
      · exact hr
    · intro e he
      rw [hid] at he
      exact EdgeOk_mono hnodes1 (hE e he)
    · intro k hk
      obtain ⟨sz, hsz⟩ := hF k hk
      exact ⟨sz, hnodes1 _ hsz⟩
  · -- fresh edge appended
    refine ⟨?_, ?_, ?_⟩
    · intro p hp
      rcases hnodes1' p hp with hp' | rfl
      · have hstep : NodeOk fm g p := hN p hp'
        obtain ⟨k, d⟩ := p
        cases d with
        | fileNode sz => exact hstep
        | bare => exact hstep
        | entityLite nm => exact hstep
        | entityNode nm kd fp sn ln =>
          refine ⟨hstep.1, hstep.2.1, hstep.2.2.1, ?_⟩
          rw [definesInto_edges]
          show (g.edges ++ [Edge.mk rel r "imports"]).filter _ = _
          rw [List.filter_append]
          have hnil : ([Edge.mk rel r "imports"].filter
              (fun e => e.relation == "defines" && e.tgt == (k, NodeData.entityNode nm kd fp sn ln).1)) = [] := by
            simp
          rw [hnil, List.append_nil]
          exact hstep.2.2.2
      · exact hr
    · intro e he
      show EdgeOk _ e
      have he' : e ∈ g.edges ++ [Edge.mk rel r "imports"] := he
      rcases List.mem_append.1 he' with hold | hnew
      · exact EdgeOk_mono hnodes1 (hE e hold)
      · have : e = Edge.mk rel r "imports" := by simpa using hnew
        subst this
        exact Or.inr ⟨rfl, hr⟩
    · intro k hk
      obtain ⟨sz, hsz⟩ := hF k hk
      exact ⟨sz, hnodes1 _ hsz⟩

/-- Adding a symbol node together with its `defines` edge preserves the
graph invariant. -/
theorem define_step_good {fm : List (String × String)} {g : Graph} {rel text nid : String}
    (kind snippet : String) (line : Nat)
    (hnid : nid = rel ++ "::" ++ text)
    (hfm : ∀ k ∈ fmKeys fm, containsS k "::" = false)
    (hrel : rel ∈ fmKeys fm)
    (htext : ':' ∉ text.toList)
    (hG : GoodGraph fm g) :
    GoodGraph fm (addEdge (addNode g nid (.entityNode text kind rel snippet line))
      rel nid "defines") := by
  obtain ⟨hN, hE, hF⟩ := hG
  have hiddc : containsS nid "::" = true := hnid ▸ containsS_marker rel text
  have hreldc : containsS rel "::" = false := hfm rel hrel
  have hrelne : rel ≠ nid := by
    intro h
    rw [← h, hreldc] at hiddc
    exact Bool.false_ne_true hiddc
  by_cases hid : (g.nodes.any (fun p => p.1 == nid)) = true
  · -- a node keyed `nid` already exists: it must be the same symbol of the
    -- same file, and its `defines` edge is already in place
    obtain ⟨q, hq, hqk⟩ := List.any_eq_true.1 hid
    rw [beq_iff_eq] at hqk
    obtain ⟨qk, qd⟩ := q
    dsimp only at hqk
    rw [hqk] at hq
    have hNq := hN _ hq
    cases qd with
    | fileNode sz =>
      exfalso
      have : containsS nid "::" = false := hfm nid hNq
      rw [this] at hiddc
      exact Bool.false_ne_true hiddc
    | bare =>
      exfalso
      rw [hNq] at hiddc
      exact Bool.false_ne_true hiddc
    | entityLite nm => exact absurd hNq (by simp [NodeOk])
    | entityNode nm' kd' fp' sn' ln' =>
      obtain ⟨hq1, hq2, _, hq4⟩ := hNq
      obtain ⟨hfp, hnm⟩ := entityId_inj htext hq2 (hnid ▸ hq1 : rel ++ "::" ++ text = fp' ++ "::" ++ nm')
      subst hfp
      subst hnm
      have hdi : definesInto g nid = [Edge.mk rel nid "defines"] := hq4
      have he0 : Edge.mk rel nid "defines" ∈ g.edges := by
        apply List.mem_of_mem_filter (p := fun e => e.relation == "defines" && e.tgt == nid)
        rw [← definesInto_edges, hdi]
        exact List.mem_singleton_self _
      have hkeyid : ∀ e ∈ g.edges, (e.src == rel && e.tgt == nid) = true →
          e = Edge.mk rel nid "defines" := by
        intro e he hk
        rw [Bool.and_eq_true, beq_iff_eq, beq_iff_eq] at hk
        rcases hE e he with ⟨hd, _, _, _, _, _, _, _⟩ | ⟨_, hdc⟩
        · have : e ∈ definesInto g nid := by
            rw [definesInto_edges]
            exact List.mem_filter.2 ⟨he, by simp [hd, hk.2]⟩
          rw [hdi] at this
          simpa using this
        · exfalso
          rw [hk.2, hiddc] at hdc
          exact Bool.false_ne_true hdc.symm
      have hmapid : g.edges.map (fun e =>
          if e.src == rel && e.tgt == nid then { e with relation := "defines" } else e)
          = g.edges := by
        apply mapSelf
        intro e he
        by_cases hk : (e.src == rel && e.tgt == nid) = true
        · rw [if_pos hk, hkeyid e he hk]
        · rw [if_neg hk]
      have hkey2 : addEdge (addNode g nid (.entityNode text kind rel snippet line))
          rel nid "defines"
          = ⟨upsertA g.nodes nid (.entityNode text kind rel snippet line), g.edges⟩ := by
        obtain ⟨sz0, hsz0⟩ := hF rel hrel
        unfold addEdge addNode
        rw [ensureNode_present (k := rel) ⟨_, mem_upsertA_of_ne hsz0 hrelne _⟩]
        rw [ensureNode_present (k := nid) ⟨_, mem_upsertA_self g.nodes nid _⟩]
        dsimp only
        rw [if_pos (List.any_eq_true.2 ⟨_, he0, by simp⟩), hmapid]
      rw [hkey2]
      refine ⟨?_, ?_, ?_⟩
      · intro p hp
        rcases mem_upsertA_elim hp with rfl | ⟨hpl, hne⟩
        · exact ⟨hnid, htext, hrel, hdi⟩
        · exact hN p hpl
      · intro e he
        rcases hE e he with ⟨hd, nm2, kd2, sn2, ln2, hnode, htgt, hnm2⟩ | hi
        · by_cases htgtid : e.tgt = nid
          · have he' : e = Edge.mk rel nid "defines" := by
              have : e ∈ definesInto g nid := by
                rw [definesInto_edges]
                exact List.mem_filter.2 ⟨he, by simp [hd, htgtid]⟩
              rw [hdi] at this
              simpa using this
            refine Or.inl ⟨hd, text, kind, snippet, line, ?_, ?_, htext⟩
            · rw [he']
              exact mem_upsertA_self _ _ _
            · rw [he', hnid]
          · exact Or.inl ⟨hd, nm2, kd2, sn2, ln2, mem_upsertA_of_ne hnode htgtid _, htgt, hnm2⟩
        · exact Or.inr hi
      · intro k hk
        obtain ⟨sz, hsz⟩ := hF k hk
        have hkne : k ≠ nid := by
          intro hcon
          have := hfm k hk
          rw [hcon, hiddc] at this
          exact Bool.false_ne_true this.symm
        exact ⟨sz, mem_upsertA_of_ne hsz hkne _⟩
  · -- fresh symbol node: node and edge are appended
    have hnotgt : ∀ e ∈ g.edges, (e.tgt == nid) = false := by
      intro e he
      rw [beq_eq_false_iff_ne]
      intro hcon
      rcases hE e he with ⟨_, nm2, kd2, sn2, ln2, hnode, _, _⟩ | ⟨_, hdc⟩
      · exact hid (List.any_eq_true.2 ⟨_, hnode, by simp [hcon]⟩)
      · rw [hcon, hiddc] at hdc
        exact Bool.false_ne_true hdc.symm
    have hup : upsertA g.nodes nid (NodeData.entityNode text kind rel snippet line)
        = g.nodes ++ [(nid, NodeData.entityNode text kind rel snippet line)] := by
      unfold upsertA
      rw [if_neg hid]
    have hkey1 : addEdge (addNode g nid (.entityNode text kind rel snippet line))
        rel nid "defines"
        = ⟨g.nodes ++ [(nid, .entityNode text kind rel snippet line)],
           g.edges ++ [Edge.mk rel nid "defines"]⟩ := by
      obtain ⟨sz0, hsz0⟩ := hF rel hrel
      unfold addEdge addNode
      rw [hup]
      rw [ensureNode_present (k := rel) ⟨_, List.mem_append_left _ hsz0⟩]
      rw [ensureNode_present (k := nid) ⟨_, List.mem_append_right _ (List.mem_singleton_self _)⟩]
      dsimp only
      rw [if_neg ?hno]
      case hno =>
        intro hc
        obtain ⟨e, he, hke⟩ := List.any_eq_true.1 hc
        rw [Bool.and_eq_true] at hke
        rw [hnotgt e he] at hke
        exact Bool.false_ne_true hke.2
    rw [hkey1]
    have hdinil : definesInto g nid = [] := by
      rw [definesInto_edges]
      apply List.filter_eq_nil_iff.2
      intro e he
      rw [Bool.and_eq_true]
      intro hc
      rw [hnotgt e he] at hc
      exact Bool.false_ne_true hc.2
    refine ⟨?_, ?_, ?_⟩
    · intro p hp
      rcases List.mem_append.1 hp with hp' | hp'
      · have hstep := hN p hp'
        obtain ⟨k, d⟩ := p
        cases d with
        | fileNode sz => exact hstep
        | bare => exact hstep
        | entityLite nm => exact hstep
        | entityNode nm2 kd2 fp2 sn2 ln2 =>
          refine ⟨hstep.1, hstep.2.1, hstep.2.2.1, ?_⟩
          have hkne : (nid == k) = false := by
            rw [beq_eq_false_iff_ne]
            intro hcon
            exact hid (List.any_eq_true.2 ⟨_, hp', by simp [hcon]⟩)
          rw [definesInto_edges]
          show (g.edges ++ [Edge.mk rel nid "defines"]).filter _ = _
          rw [List.filter_append]
          have hnil : ([Edge.mk rel nid "defines"].filter
              (fun e => e.relation == "defines" && e.tgt == (k, NodeData.entityNode nm2 kd2 fp2 sn2 ln2).1)) = [] := by
            simp [hkne]
          rw [hnil, List.append_nil]
          exact hstep.2.2.2
      · have hp'' : p = (nid, NodeData.entityNode text kind rel snippet line) := by simpa using hp'
        subst hp''
        refine ⟨hnid, htext, hrel, ?_⟩
        rw [definesInto_edges]
        show (g.edges ++ [Edge.mk rel nid "defines"]).filter _ = _
        rw [List.filter_append, ← definesInto_edges, hdinil]
        simp
    · intro e he
      rcases List.mem_append.1 he with hold | hnew
      · exact EdgeOk_mono (fun q hq => List.mem_append_left _ hq) (hE e hold)
      · have he' : e = Edge.mk rel nid "defines" := by simpa using hnew
        subst he'
        refine Or.inl ⟨rfl, text, kind, snippet, line, ?_, hnid, htext⟩
        exact List.mem_append_right _ (List.mem_singleton_self _)
    · intro k hk
      obtain ⟨sz, hsz⟩ := hF k hk
      exact ⟨sz, List.mem_append_left _ hsz⟩

/-- One capture-processing step preserves the graph invariant. -/
theorem processCapture_good
    (tsPaths : List (String × List String)) (baseUrl : String)
    (fm : List (String × String)) (root : List FSTree)
    (rel content : String) (cap : Capture) (g : Graph)
    (hfm : ∀ k ∈ fmKeys fm, containsS k "::" = false)
    (hrel : rel ∈ fmKeys fm)
    (hdef : defineTags.contains cap.tag = true → ':' ∉ (captureText content cap).toList)
    (himp : cap.tag = "import_path" → ∀ r,
      resolveImportPath tsPaths baseUrl fm root rel (captureText content cap) = some r →
      containsS r "::" = false)
    (hG : GoodGraph fm g) :
    GoodGraph fm (processCapture tsPaths baseUrl fm root rel content g cap) := by
  unfold processCapture
  dsimp only
  split_ifs with htag hdtag
  · cases hres : resolveImportPath tsPaths baseUrl fm root rel (captureText content cap) with
    | none => exact hG
    | some r =>
      exact addEdge_imports_good hrel (himp (by rwa [beq_iff_eq] at htag) r hres) hG
  · exact define_step_good _ _ _ rfl hfm hrel (hdef hdtag) hG
  · exact hG

/-- `_parse_dependencies` of one file preserves the graph invariant. -/
theorem parseDependencies_good
    (tsPaths : List (String × List String)) (baseUrl : String)
    (fm : List (String × String)) (root : List FSTree)
    (avail : Bool) (oracle : String → String → List Capture)
    (rel content : String) (g : Graph)
    (hfm : ∀ k ∈ fmKeys fm, containsS k "::" = false)
    (hrel : rel ∈ fmKeys fm)
    (hdefs : ∀ cap ∈ effectiveCaptures avail oracle rel content,
      defineTags.contains cap.tag = true → ':' ∉ (captureText content cap).toList)
    (himps : ∀ cap ∈ effectiveCaptures avail oracle rel content,
      cap.tag = "import_path" → ∀ r,
        resolveImportPath tsPaths baseUrl fm root rel (captureText content cap) = some r →
        containsS r "::" = false)
    (hG : GoodGraph fm g) :
    GoodGraph fm (parseDependencies avail oracle tsPaths baseUrl fm root g rel content) := by
  unfold parseDependencies
  revert hdefs himps
  suffices haux : ∀ (l : List Capture),
      (∀ cap ∈ l, defineTags.contains cap.tag = true → ':' ∉ (captureText content cap).toList) →
      (∀ cap ∈ l, cap.tag = "import_path" → ∀ r,
        resolveImportPath tsPaths baseUrl fm root rel (captureText content cap) = some r →
        containsS r "::" = false) →
      ∀ g', GoodGraph fm g' →
        GoodGraph fm (l.foldl (processCapture tsPaths baseUrl fm root rel content) g') by
    intro hdefs himps
    exact haux _ hdefs himps g hG
  intro l
  induction l with
  | nil => intro _ _ g' hg'; exact hg'
  | cons cap caps ih =>
    intro hdefs himps g' hg'
    rw [List.foldl_cons]
    exact ih (fun c hc => hdefs c (List.mem_cons_of_mem _ hc))
      (fun c hc => himps c (List.mem_cons_of_mem _ hc)) _
      (processCapture_good tsPaths baseUrl fm root rel content cap g' hfm hrel
        (hdefs cap (List.mem_cons_self _ _)) (himps cap (List.mem_cons_self _ _)) hg')

/-- The whole dependency pass preserves the graph invariant. -/
theorem pass2_good
    (tsPaths : List (String × List String)) (baseUrl : String)
    (avail : Bool) (oracle : String → String → List Capture)
    (fm : List (String × String)) (root : List FSTree)
    (hfm : ∀ k ∈ fmKeys fm, containsS k "::" = false)
    (h2 : ∀ p ∈ fm, ∀ cap ∈ effectiveCaptures avail oracle p.1 p.2,
      defineTags.contains cap.tag = true → ':' ∉ (captureText p.2 cap).toList)
    (h3 : ∀ p ∈ fm, ∀ cap ∈ effectiveCaptures avail oracle p.1 p.2,
      cap.tag = "import_path" →
        ((resolveImportPath tsPaths baseUrl fm root p.1 (captureText p.2 cap)).all
          (fun r => !containsS r "::")) = true) :
    ∀ (l : List (String × String)), (∀ p ∈ l, p ∈ fm) → ∀ g, GoodGraph fm g →
      GoodGraph fm (l.foldl (fun g pc =>
        if endsWithAnyS pc.1 languageExts then
          parseDependencies avail oracle tsPaths baseUrl fm root g pc.1 pc.2
        else g) g) := by
  intro l
  induction l with
  | nil => intro _ g hg; exact hg
  | cons p ps ih =>
    intro hsub g hg
    rw [List.foldl_cons]
    apply ih (fun q hq => hsub q (List.mem_cons_of_mem _ hq))
    split_ifs
    · have hpfm : p ∈ fm := hsub p (List.mem_cons_self _ _)
      have hrel : p.1 ∈ fmKeys fm := List.mem_map.2 ⟨p, hpfm, rfl⟩
      apply parseDependencies_good tsPaths baseUrl fm root avail oracle p.1 p.2 g hfm hrel
        (h2 p hpfm) ?_ hg
      intro cap hcap htag r hres
      have := h3 p hpfm cap hcap htag
      rw [hres] at this
      simpa using this
    · exact hg

/-- C6: after `analyze` on a fresh session — for any repository whose
collected paths do not contain the `::` marker, whose symbol names contain
no colon (true of every tree-sitter identifier), and whose resolved import
targets contain no `::` (true whenever on-disk names avoid it) — every
symbol node in the graph has exactly one `defines` edge, whose source is
the single file node of its defining file, a key of `file_map`; and every
`defines` edge targets an existing symbol node. -/
theorem c6_defines_invariant (tsPaths : List (String × List String)) (baseUrl : String)
    (entries : List FSTree) (failReads : List String) (avail : Bool)
    (oracle : String → String → List Capture)
    (fm : List (String × String))
    (hfmdef : fm = (walkTop ignoreDirs acceptedExts failReads analyzerHandler entries
      ⟨[], Graph.empty, []⟩).fileMap)
    (h4 : ∀ k ∈ fmKeys fm, containsS k "::" = false)
    (h2 : ∀ p ∈ fm, ∀ cap ∈ effectiveCaptures avail oracle p.1 p.2,
      defineTags.contains cap.tag = true → ':' ∉ (captureText p.2 cap).toList)
    (h3 : ∀ p ∈ fm, ∀ cap ∈ effectiveCaptures avail oracle p.1 p.2,
      cap.tag = "import_path" →
        ((resolveImportPath tsPaths baseUrl fm entries p.1 (captureText p.2 cap)).all
          (fun r => !containsS r "::")) = true) :
    (∀ p ∈ (analyzeRun tsPaths baseUrl entries failReads avail oracle).graph.nodes,
      p.2.isEntity = true →
      ∃ nm kd fp sn ln, p.2 = NodeData.entityNode nm kd fp sn ln ∧
        definesInto (analyzeRun tsPaths baseUrl entries failReads avail oracle).graph p.1
          = [⟨fp, p.1, "defines"⟩] ∧
        fp ∈ fmKeys (analyzeRun tsPaths baseUrl entries failReads avail oracle).fileMap ∧
        (∃ sz, (fp, NodeData.fileNode sz)
          ∈ (analyzeRun tsPaths baseUrl entries failReads avail oracle).graph.nodes)) ∧
    (∀ e ∈ (analyzeRun tsPaths baseUrl entries failReads avail oracle).graph.edges,
      e.relation = "defines" →
      ∃ d, (e.tgt, d) ∈ (analyzeRun tsPaths baseUrl entries failReads avail oracle).graph.nodes ∧
        d.isEntity = true) := by
  have hinv : Pass1Inv (walkTop ignoreDirs acceptedExts failReads analyzerHandler entries
      ⟨[], Graph.empty, []⟩) := by
    apply walkTop_preserves _ _ _ _ Pass1Inv analyzerHandler_inv
    exact ⟨rfl, by simp [Graph.empty], by simp [fmKeys]⟩
  subst hfmdef
  have hG0 : GoodGraph
      (walkTop ignoreDirs acceptedExts failReads analyzerHandler entries ⟨[], Graph.empty, []⟩).fileMap
      (walkTop ignoreDirs acceptedExts failReads analyzerHandler entries ⟨[], Graph.empty, []⟩).graph := by
    refine ⟨?_, ?_, hinv.2.2⟩
    · intro p hp
      obtain ⟨⟨sz, hsz⟩, hkey⟩ := hinv.2.1 p hp
      obtain ⟨k, d⟩ := p
      dsimp only at hsz
      subst hsz
      exact hkey
    · intro e he
      rw [hinv.1] at he
      exact absurd he (List.not_mem_nil e)
  have hGfinal : GoodGraph
      (walkTop ignoreDirs acceptedExts failReads analyzerHandler entries ⟨[], Graph.empty, []⟩).fileMap
      ((analyzeRun tsPaths baseUrl entries failReads avail oracle).graph) := by
    exact pass2_good tsPaths baseUrl avail oracle _ entries h4 h2 h3 _ (fun p hp => hp) _ hG0
  obtain ⟨hN, hE, hF⟩ := hGfinal
  constructor
  · intro p hp hent
    have hNp := hN p hp
    obtain ⟨k, d⟩ := p
    cases d with
    | fileNode sz => exact absurd hent (by simp [NodeData.isEntity])
    | bare => exact absurd hent (by simp [NodeData.isEntity])
    | entityLite nm => exact absurd hNp (by simp [NodeOk])
    | entityNode nm kd fp sn ln =>
      exact ⟨nm, kd, fp, sn, ln, rfl, hNp.2.2.2, hNp.2.2.1, hF fp hNp.2.2.1⟩
  · intro e he hdef
    rcases hE e he with ⟨_, nm, kd, sn, ln, hnode, _, _⟩ | ⟨hi, _⟩
    · exact ⟨_, hnode, rfl⟩
    · rw [hdef] at hi
      exact absurd hi (by decide)

/-- Witness for `c6_defines_invariant` on a concrete two-file repository
(one import, one class definition). -/
theorem c6_defines_invariant_witness :
    (∀ k ∈ fmKeys (walkTop ignoreDirs acceptedExts [] analyzerHandler c6Entries
        ⟨[], Graph.empty, []⟩).fileMap, containsS k "::" = false) ∧
    ((∀ p ∈ (analyzeRun [] "." c6Entries [] true c6Oracle).graph.nodes,
      p.2.isEntity = true →
      ∃ nm kd fp sn ln, p.2 = NodeData.entityNode nm kd fp sn ln ∧
        definesInto (analyzeRun [] "." c6Entries [] true c6Oracle).graph p.1
          = [⟨fp, p.1, "defines"⟩] ∧
        fp ∈ fmKeys (analyzeRun [] "." c6Entries [] true c6Oracle).fileMap ∧
        (∃ sz, (fp, NodeData.fileNode sz)
          ∈ (analyzeRun [] "." c6Entries [] true c6Oracle).graph.nodes)) ∧
    (∀ e ∈ (analyzeRun [] "." c6Entries [] true c6Oracle).graph.edges,
      e.relation = "defines" →
      ∃ d, (e.tgt, d) ∈ (analyzeRun [] "." c6Entries [] true c6Oracle).graph.nodes ∧
        d.isEntity = true)) :=
  ⟨by decide,
   c6_defines_invariant [] "." c6Entries [] true c6Oracle _ rfl
     (by decide) (by decide) (by decide)⟩

end Docer
